import Mathlib

/-!
Verification of the log-structured key/value store in `src/kv.rs`
(`KvStore`: `open`, `set`, `get`, `remove`, `compact`, plus the replay
function `load`).

The embedding works at record granularity: a log file is the list of
records it contains, and byte offsets/lengths are computed from the
exact serialised length of each record under the compact JSON encoding
used by the source (`serde_json::to_writer` of the externally tagged
enum `MultipleCmd`).  Reading `len` bytes at offset `pos` succeeds and
yields a record exactly when `pos` is a record boundary and `len` is
that record's serialised length, which is the codec contract the
source relies on (it only ever reads ranges previously produced by a
write or by the streaming deserialiser).
-/

set_option maxHeartbeats 1000000

namespace Kvs

/-- Strict lexicographic order on char lists.  For UTF-8 encoded
strings this coincides with the byte-wise `Ord` used by Rust's
`BTreeMap<String, _>` keys. -/
def lexLt : List Char → List Char → Bool
  | [], [] => false
  | [], _ :: _ => true
  | _ :: _, [] => false
  | a :: as, b :: bs => if a < b then true else if a = b then lexLt as bs else false

/-- Key order interface for the sorted-association-list embedding of
`BTreeMap` / `HashMap` key lookup. -/
class KOrd (κ : Type) where
  klt : κ → κ → Bool
  klt_irrefl : ∀ a, klt a a = false
  klt_trans : ∀ a b c, klt a b = true → klt b c = true → klt a c = true
  klt_total : ∀ a b, a ≠ b → klt a b = true ∨ klt b a = true

instance : KOrd Nat where
  klt a b := decide (a < b)
  klt_irrefl a := by simp
  klt_trans a b c h1 h2 := by simp_all; omega
  klt_total a b h := by simp; omega

/-- Transitivity of `lexLt`. -/
theorem lexLt_trans : ∀ a b c, lexLt a b = true → lexLt b c = true → lexLt a c = true
  | [], [], _, h1, _ => by simp [lexLt] at h1
  | [], _ :: _, [], _, h2 => by simp [lexLt] at h2
  | [], _ :: _, _ :: _, _, _ => by simp [lexLt]
  | _ :: _, [], _, h1, _ => by simp [lexLt] at h1
  | _ :: _, _ :: _, [], _, h2 => by simp [lexLt] at h2
  | a :: as, b :: bs, c :: cs, h1, h2 => by
    simp only [lexLt] at *
    split at h1
    · rename_i hab
      split at h2
      · rename_i hbc
        simp [lt_trans hab hbc]
      · split at h2
        · rename_i hbc
          subst hbc
          simp [hab]
        · exact absurd h2 (by simp)
    · split at h1
      · rename_i hab
        subst hab
        split at h2
        · rename_i hbc
          simp [hbc]
        · split at h2
          · rename_i hbc
            subst hbc
            simp [lt_irrefl, lexLt_trans as bs cs h1 h2]
          · exact absurd h2 (by simp)
      · exact absurd h1 (by simp)

/-- Totality of `lexLt` on distinct lists. -/
theorem lexLt_total : ∀ a b : List Char, a ≠ b → lexLt a b = true ∨ lexLt b a = true
  | [], [], h => absurd rfl h
  | [], _ :: _, _ => by simp [lexLt]
  | _ :: _, [], _ => by simp [lexLt]
  | a :: as, b :: bs, h => by
    rcases lt_trichotomy a b with hab | hab | hab
    · simp [lexLt, hab]
    · subst hab
      have hne : as ≠ bs := by intro hh; exact h (by rw [hh])
      rcases lexLt_total as bs hne with h1 | h1 <;>
        simp [lexLt, h1, lt_irrefl]
    · simp [lexLt, hab, not_lt_of_lt hab, (ne_of_gt hab)]

/-- Irreflexivity of `lexLt`. -/
theorem lexLt_irrefl : ∀ a : List Char, lexLt a a = false
  | [] => rfl
  | c :: cs => by simp [lexLt, lexLt_irrefl cs]

instance : KOrd String where
  klt a b := lexLt a.data b.data
  klt_irrefl a := lexLt_irrefl a.data
  klt_trans _ _ _ h1 h2 := lexLt_trans _ _ _ h1 h2
  klt_total a b h := lexLt_total a.data b.data (fun hh => h (String.ext hh))

/-- Serialised length in bytes of one character inside a JSON string,
as produced by `serde_json`'s compact formatter: `"` and `\` get a
two-byte escape, the control characters BS, TAB, LF, FF, CR get a
two-byte escape, other control characters get a six-byte `\u00XX`
escape, and everything else is emitted as raw UTF-8. -/
def escLen (c : Char) : Nat :=
  if c = '"' ∨ c = '\\' then 2
  else if c.toNat < 32 then
    if c = '\x08' ∨ c = '\t' ∨ c = '\n' ∨ c = '\x0c' ∨ c = '\r' then 2 else 6
  else c.utf8Size

/-- Serialised length of a JSON string literal: two quotes plus the
escaped characters. -/
def jsonStrLen (s : String) : Nat := 2 + (s.data.map escLen).sum

/-- The record enum of `src/kv.rs` (`enum MultipleCmd`): `Set { key, value }`
or `Rm { key }`. -/
inductive MultipleCmd
  | Set (key value : String)
  | Rm (key : String)
deriving DecidableEq

/-- Serialised length in bytes of a record under `serde_json::to_writer`,
which emits the externally tagged forms
`\x7b"Set":\x7b"key":K,"value":V\x7d\x7d` (25 bytes of framing) and
`\x7b"Rm":\x7b"key":K\x7d\x7d` (15 bytes of framing). -/
def encLen : MultipleCmd → Nat
  | .Set k v => 25 + jsonStrLen k + jsonStrLen v
  | .Rm k => 15 + jsonStrLen k

/-- A log file, at record granularity: the list of records it holds,
in file order.  Byte offsets are recovered from `encLen`. -/
abbrev LogFile := List MultipleCmd

/-- Size in bytes of a log file. -/
def fileSize (f : LogFile) : Nat := (f.map encLen).sum

/-- Read `len` bytes at absolute offset `pos` of a log file and decode
one record (`reader.take(len)` + `serde_json::from_reader`).  This
succeeds exactly when `pos` is a record boundary and `len` is the
record's serialised length; reading from mid-record or with a length
that does not delimit a whole record is a decode failure. -/
def recAt : LogFile → Nat → Nat → Option MultipleCmd
  | [], _, _ => none
  | c :: rest, pos, len =>
    if pos = 0 then (if len = encLen c then some c else none)
    else if pos < encLen c then none
    else recAt rest (pos - encLen c) len

namespace KMap

/-- Lookup in an association list (`BTreeMap::get` / `HashMap::get`). -/
def lookup [DecidableEq κ] (k : κ) : List (κ × σ) → Option σ
  | [] => none
  | p :: rest => if p.1 = k then some p.2 else lookup k rest

/-- Insert keeping keys sorted (`BTreeMap::insert`; also used for the
reader map, whose iteration order is irrelevant to the engine except
in `compact`, where only the set of keys matters). -/
def insert [KOrd κ] [DecidableEq κ] (k : κ) (v : σ) : List (κ × σ) → List (κ × σ)
  | [] => [(k, v)]
  | p :: rest =>
    if KOrd.klt k p.1 then (k, v) :: p :: rest
    else if k = p.1 then (k, v) :: rest
    else p :: insert k v rest

/-- Remove the entry of a key (`BTreeMap::remove` / `HashMap::remove`). -/
def erase [DecidableEq κ] (k : κ) : List (κ × σ) → List (κ × σ)
  | [] => []
  | p :: rest => if p.1 = k then rest else p :: erase k rest

/-- Strictly ascending keys: the canonical-form invariant of the
sorted-association-list maps. -/
def SortedKeys [KOrd κ] (l : List (κ × σ)) : Prop :=
  List.Pairwise (fun a b => KOrd.klt a.1 b.1 = true) l

end KMap

/-- Position and length of a serialised record in a log
(`struct RecordArgs` in `src/kv.rs`; built from `(log, start..end)` via
`From<(u64, Range<u64>)>`, so `len = end - start`). -/
structure RecordArgs where
  log : Nat
  pos : Nat
  len : Nat
deriving DecidableEq

/-- Error enum of `src/error.rs`, plus `Panic`, which models a Rust
panic from `.unwrap()` on a missing reader (not an error value in the
source; unreachable from well-formed states). -/
inductive KvsError
  | Io
  | KeyNotFound
  | Serde
  | UnexpectedCommandType
  | Panic
deriving DecidableEq

deriving instance DecidableEq for Except

/-- State of `struct KvStore`.  `files` is the content of the database
directory (generation number to log-file content), so persistence is
modelled by keeping `files` and dropping the rest.  `writerPos` is
`self.writer.pos`; `readers` maps each generation to its reader's
current byte position. -/
structure KvStore where
  log : Nat
  uncompacted : Nat
  readers : List (Nat × Nat)
  writerPos : Nat
  files : List (Nat × LogFile)
  records : List (String × RecordArgs)
deriving DecidableEq

/-- Compaction threshold, `const COMPACTION_THRESHOLD: u64 = 1024 * 1024`. -/
def COMPACTION_THRESHOLD : Nat := 1024 * 1024

/-- Read and decode the record stored at `(g, pos, len)`: look up the
log file of generation `g` and decode `len` bytes at offset `pos`. -/
def readRec (files : List (Nat × LogFile)) (g pos len : Nat) : Option MultipleCmd :=
  match KMap.lookup g files with
  | none => none
  | some f => recAt f pos len

/-- Intermediate state of the `compact` loop: the rewritten index
entries so far (in iteration order), the compaction file content so
far, `new_pos`, and the reader map with its advanced positions. -/
structure CState where
  recs : List (String × RecordArgs)
  comp : LogFile
  pos : Nat
  rdrs : List (Nat × Nat)
deriving DecidableEq

/-- The `for record in self.records.values_mut()` loop of `compact`:
for each index entry, read `len` bytes at the entry's position through
that generation's reader and copy them to the compaction file, then
repoint the entry at `(compaction_log, new_pos, len)`.  A missing
reader is the source's `.unwrap()` panic; a range that does not
delimit a whole record would make `io::copy` duplicate bytes that are
not a record, which the embedding reports as an error (both are
unreachable from well-formed states). -/
def compactLoop (files : List (Nat × LogFile)) (clog : Nat) :
    List (String × RecordArgs) → CState → Except KvsError CState
  | [], st => .ok st
  | (k, r) :: rest, st =>
    match KMap.lookup r.log st.rdrs with
    | none => .error .Panic
    | some _ =>
      match readRec files r.log r.pos r.len with
      | some cmd =>
        compactLoop files clog rest
          { recs := st.recs ++ [(k, ⟨clog, st.pos, r.len⟩)],
            comp := st.comp ++ [cmd],
            pos := st.pos + r.len,
            rdrs := KMap.insert r.log (r.pos + r.len) st.rdrs }
      | none => .error .Io

/-- The stale-generation sweep at the end of `compact`: for each stale
generation, drop its reader and delete its file (`fs::remove_file`
fails if the file is absent). -/
def retire : List Nat → List (Nat × Nat) × List (Nat × LogFile) →
    Except KvsError (List (Nat × Nat) × List (Nat × LogFile))
  | [], st => .ok st
  | g :: gs, (rd, fl) =>
    match KMap.lookup g fl with
    | none => .error .Io
    | some _ => retire gs (KMap.erase g rd, KMap.erase g fl)

/-- `KvStore::compact`: reserve `compaction_log = log + 1`, move the
writer to `log + 2`, copy every live record into the compaction file,
then delete every generation below `compaction_log` that has a reader,
and reset the stale-byte counter.  The compaction writer is buffered,
so its file content lands on disk when it is dropped at the end of the
function (its flush-on-drop), after the deletions.  On an error the
engine is left in an intermediate state the source never rolls back;
the embedding returns the state as of the failed step's surroundings
(callers must treat it as indeterminate, as the spec prescribes). -/
def KvStore.compact (s : KvStore) : Except KvsError Unit × KvStore :=
  let compaction_log := s.log + 1
  let log2 := s.log + 2
  let files0 := KMap.insert log2 ([] : LogFile) s.files
  let readers0 := KMap.insert log2 0 s.readers
  let files1 := KMap.insert compaction_log ([] : LogFile) files0
  let readers1 := KMap.insert compaction_log 0 readers0
  match compactLoop files1 compaction_log s.records ⟨[], [], 0, readers1⟩ with
  | .error e => (.error e, { s with log := log2, writerPos := 0, files := files1, readers := readers1 })
  | .ok st =>
    let stale := (st.rdrs.map Prod.fst).filter (fun g => decide (g < compaction_log))
    match retire stale (st.rdrs, files1) with
    | .error e =>
      (.error e, { s with log := log2, writerPos := 0, files := files1,
                          readers := readers1, records := st.recs })
    | .ok (rd2, fl2) =>
      (.ok (), { log := log2, uncompacted := 0, writerPos := 0,
                 readers := rd2,
                 files := KMap.insert compaction_log st.comp fl2,
                 records := st.recs })

/-- State change of `KvStore::set` up to and including the index
update (serialise, append to the active log, flush, insert the index
entry at `(self.log, pos, writer.pos - pos)`, count the replaced
entry's length as stale), before the compaction-trigger check. -/
def KvStore.setCore (s : KvStore) (key value : String) : KvStore :=
  let cmd := MultipleCmd.Set key value
  let pos := s.writerPos
  let newPos := pos + encLen cmd
  let af := (KMap.lookup s.log s.files).getD []
  let uncompacted' :=
    match KMap.lookup key s.records with
    | some old_cmd => s.uncompacted + old_cmd.len
    | none => s.uncompacted
  { s with writerPos := newPos,
           files := KMap.insert s.log (af ++ [cmd]) s.files,
           records := KMap.insert key ⟨s.log, pos, newPos - pos⟩ s.records,
           uncompacted := uncompacted' }

/-- `KvStore::set` with its two fallible I/O points made explicit:
`wOk` is `serde_json::to_writer` (serialise + buffered write), `fOk`
is `writer.flush()`.  On a failed write some prefix of the record may
have been accepted by the buffered writer (`nWritten` bytes), and on a
failed flush the buffered bytes never reach the file; in both cases
the function returns before touching the index.  With both flags true
this is exactly `set`: append, flush, update the index, and compact
when the stale bytes exceed `COMPACTION_THRESHOLD`. -/
def KvStore.setFaults (s : KvStore) (key value : String)
    (wOk fOk : Bool) (nWritten : Nat) : Except KvsError Unit × KvStore :=
  let cmd := MultipleCmd.Set key value
  if wOk then
    if fOk then
      let s2 := s.setCore key value
      if s2.uncompacted > COMPACTION_THRESHOLD then s2.compact else (.ok (), s2)
    else (.error .Io, { s with writerPos := s.writerPos + encLen cmd })
  else (.error .Serde, { s with writerPos := s.writerPos + min nWritten (encLen cmd) })

/-- `KvStore::set` on the happy I/O path. -/
def KvStore.set (s : KvStore) (key value : String) : Except KvsError Unit × KvStore :=
  s.setFaults key value true true 0

/-- Modelled from the spec: `set` against an engine whose compaction
threshold is infinite, i.e. the same write-flush-index update with the
compaction trigger never firing (the comparison engine of the
"compaction preserves content" property). -/
def KvStore.setInf (s : KvStore) (key value : String) : KvStore :=
  s.setCore key value

/-- `KvStore::get`: index lookup; on a hit, seek that generation's
reader to the entry's position (panicking if the reader is missing),
read `len` bytes and decode them; a `Set` yields its value, a `Rm` is
`UnexpectedCommandType`. -/
def KvStore.get (s : KvStore) (key : String) : Except KvsError (Option String) × KvStore :=
  match KMap.lookup key s.records with
  | some record =>
    match KMap.lookup record.log s.readers with
    | none => (.error .Panic, s)
    | some _ =>
      let readers' := KMap.insert record.log (record.pos + record.len) s.readers
      match readRec s.files record.log record.pos record.len with
      | some (.Set _ value) => (.ok (some value), { s with readers := readers' })
      | some (.Rm _) => (.error .UnexpectedCommandType, { s with readers := readers' })
      | none => (.error .Serde, { s with readers := readers' })
  | none => (.ok none, s)

/-- `KvStore::remove`: if the key is absent, fail with `KeyNotFound`
touching nothing; otherwise append and flush a `Rm` record, delete the
index entry and count the removed entry's length as stale (the inner
`None` arm is dead code in the source, kept here verbatim).  Note the
source has no compaction-trigger check here and does not count the
`Rm` record itself as stale. -/
def KvStore.remove (s : KvStore) (key : String) : Except KvsError Unit × KvStore :=
  if (KMap.lookup key s.records).isSome then
    let cmd := MultipleCmd.Rm key
    let af := (KMap.lookup s.log s.files).getD []
    let s1 := { s with writerPos := s.writerPos + encLen cmd,
                       files := KMap.insert s.log (af ++ [cmd]) s.files }
    match KMap.lookup key s1.records with
    | some old_cmd =>
      (.ok (), { s1 with records := KMap.erase key s1.records,
                         uncompacted := s1.uncompacted + old_cmd.len })
    | none => (.error .KeyNotFound, s1)
  else (.error .KeyNotFound, s)

/-- The record-consuming loop of `load` in `src/kv.rs`: stream the
records of one log file from offset 0, inserting every `Set` location
into the index and deleting on `Rm`, while counting the bytes a
compaction could reclaim (the replaced or deleted entry's length, plus
the `Rm` record's own length). -/
def loadFile (g : Nat) :
    Nat → LogFile → List (String × RecordArgs) × Nat → List (String × RecordArgs) × Nat
  | _, [], st => st
  | pos, c :: rest, (m, u) =>
    let newPos := pos + encLen c
    match c with
    | .Set k _ =>
      let u' := match KMap.lookup k m with
                | some old_cmd => u + old_cmd.len
                | none => u
      loadFile g newPos rest (KMap.insert k ⟨g, pos, newPos - pos⟩ m, u')
    | .Rm k =>
      let u' := match KMap.lookup k m with
                | some old_cmd => u + old_cmd.len
                | none => u
      loadFile g newPos rest (KMap.erase k m, u' + (newPos - pos))

/-- `load`: replay one whole log file into the index, returning the
updated index and the stale-byte count contributed by this file. -/
def load (g : Nat) (f : LogFile) (m : List (String × RecordArgs)) :
    List (String × RecordArgs) × Nat :=
  loadFile g 0 f (m, 0)

/-- Index obtained by replaying a list of log files in order (the
`for &log in &log_list` loop of `open`, restricted to the index). -/
def replayIndex (files : List (Nat × LogFile)) : List (String × RecordArgs) :=
  files.foldl (fun m p => (load p.1 p.2 m).1) []

/-- `KvStore::open` on a directory holding the given log files: sort
the generation numbers (`sorted_log_list`), replay each file in order
while opening its reader (left at end-of-file by the replay), then
create the fresh active generation `max + 1` with its reader and
writer. -/
def openDir (dir : List (Nat × LogFile)) : KvStore :=
  let log_list := List.insertionSort (· ≤ ·) (dir.map Prod.fst)
  let st := log_list.foldl
    (fun (acc : List (String × RecordArgs) × Nat × List (Nat × Nat)) g =>
      let f := (KMap.lookup g dir).getD []
      let r := load g f acc.1
      (r.1, acc.2.1 + r.2, KMap.insert g (fileSize f) acc.2.2))
    ([], 0, [])
  let log := (log_list.getLast?.getD 0) + 1
  { log := log,
    uncompacted := st.2.1,
    readers := KMap.insert log 0 st.2.2,
    writerPos := 0,
    files := KMap.insert log ([] : LogFile) dir,
    records := st.1 }

/-- A store freshly opened on an empty directory. -/
def freshStore : KvStore := openDir []

/-- Value the engine currently associates to a key: the value of the
`Set` record its index entry points at. -/
def absv (s : KvStore) (k : String) : Option String :=
  match KMap.lookup k s.records with
  | none => none
  | some r =>
    match readRec s.files r.log r.pos r.len with
    | some (.Set _ v) => some v
    | _ => none

/-- Stale bytes of one log file per the spec's invariant 5: every
record that is not the one the index points at for its key, plus every
`Remove` record. -/
def staleInFile (recs : List (String × RecordArgs)) (g : Nat) :
    Nat → LogFile → Nat
  | _, [] => 0
  | pos, c :: rest =>
    (match c with
     | .Rm _ => encLen c
     | .Set k _ => if KMap.lookup k recs = some ⟨g, pos, encLen c⟩ then 0 else encLen c)
    + staleInFile recs g (pos + encLen c) rest

/-- Stale bytes of the whole log set per the spec's invariant 5. -/
def specStaleBytes (s : KvStore) : Nat :=
  (s.files.map (fun p => staleInFile s.records p.1 0 p.2)).sum

/-- A mutating engine operation. -/
inductive Op
  | set (k v : String)
  | rm (k : String)
deriving DecidableEq

/-- Apply one mutating operation, keeping the engine state whatever
the result value is (as the Rust caller holding `&mut self` does). -/
def KvStore.applyOp (s : KvStore) : Op → KvStore
  | .set k v => (s.set k v).2
  | .rm k => (s.remove k).2

/-- Run a sequence of mutating operations left to right. -/
def KvStore.runOps (s : KvStore) (ops : List Op) : KvStore :=
  ops.foldl KvStore.applyOp s

/-- Apply one mutating operation on the infinite-threshold engine. -/
def KvStore.applyOpInf (s : KvStore) : Op → KvStore
  | .set k v => s.setInf k v
  | .rm k => (s.remove k).2

/-- Run a sequence of mutating operations on the infinite-threshold
engine. -/
def KvStore.runOpsInf (s : KvStore) (ops : List Op) : KvStore :=
  ops.foldl KvStore.applyOpInf s

/-- Run a sequence of `set` operations given as key/value pairs. -/
def KvStore.runSets (s : KvStore) (ops : List (String × String)) : KvStore :=
  s.runOps (ops.map fun p => Op.set p.1 p.2)

/-- The value of the most recent `set` of key `k` in a sequence of
key/value pairs (later entries take precedence). -/
def lastSet : List (String × String) → String → Option String
  | [], _ => none
  | p :: rest, k =>
    match lastSet rest k with
    | some v => some v
    | none => if p.1 = k then some p.2 else none

/-- Effect of one mutating operation on an abstract key/value map. -/
def applyAbs (m : String → Option String) : Op → String → Option String
  | .set k v => fun k' => if k' = k then some v else m k'
  | .rm k => fun k' => if k' = k then none else m k'

/-- Well-formedness of an engine state; every state produced by `open`
satisfies it and every public operation preserves it.  It packages the
spec's invariants 1-4 (minus the stale-byte equation, which the source
violates in `remove`): sorted index and file set, reader set equal to
the file set, all generations at most the active one, the writer
placed at the end of the active log, every index entry pointing at a
valid `Set` record for its key, and the index being exactly the
replay of the log files. -/
structure WF (s : KvStore) : Prop where
  rsort : KMap.SortedKeys s.records
  fsort : KMap.SortedKeys s.files
  gens : s.readers.map Prod.fst = s.files.map Prod.fst
  fle : ∀ p ∈ s.files, p.1 ≤ s.log
  active_some : (KMap.lookup s.log s.files).isSome
  wpos : s.writerPos = fileSize ((KMap.lookup s.log s.files).getD [])
  points : ∀ k r, KMap.lookup k s.records = some r →
    ∃ v, readRec s.files r.log r.pos r.len = some (.Set k v)
  replay : replayIndex s.files = s.records

/-- A well-formed store sitting exactly at the compaction threshold:
one live key and `1 MiB` of accumulated stale bytes (any store whose
overwritten and removed records total a mebibyte reaches such a
state). -/
def cexStore : KvStore :=
  { log := 1, uncompacted := 1024 * 1024,
    readers := [(1, 0)], writerPos := 31,
    files := [(1, [MultipleCmd.Set "k" "v"])],
    records := [("k", ⟨1, 0, 31⟩)] }

/-- Index entries as rewritten by the `compact` loop: same keys and
lengths, pointing into generation `clog` at consecutive offsets
starting from `p`. -/
def rewriteRecs (clog : Nat) : Nat → List (String × RecordArgs) → List (String × RecordArgs)
  | _, [] => []
  | p, (k, r) :: rest => (k, ⟨clog, p, r.len⟩) :: rewriteRecs clog (p + r.len) rest

/-- The records the index entries point at, in index order (the bytes
the `compact` loop copies). -/
def liveCmds (files : List (Nat × LogFile)) : List (String × RecordArgs) → LogFile
  | [] => []
  | (_, r) :: rest => ((readRec files r.log r.pos r.len).getD (.Rm "")) :: liveCmds files rest

/-- Total length of the records an index fragment points at. -/
def sumLens (l : List (String × RecordArgs)) : Nat := (l.map (fun p => p.2.len)).sum

namespace KMap

/-- Asymmetry of a key order, derived from transitivity and
irreflexivity. -/
theorem klt_asymm [KOrd κ] {a b : κ} (h1 : KOrd.klt a b = true) (h2 : KOrd.klt b a = true) :
    False := by
  have := KOrd.klt_trans a b a h1 h2
  rw [KOrd.klt_irrefl] at this
  exact Bool.false_ne_true this

/-- Keys related by the strict order are distinct. -/
theorem ne_of_klt [KOrd κ] {a b : κ} (h : KOrd.klt a b = true) : a ≠ b := by
  intro he
  subst he
  rw [KOrd.klt_irrefl] at h
  exact Bool.false_ne_true h

/-- Cons form of the sortedness invariant. -/
theorem sorted_cons [KOrd κ] {p : κ × σ} {m : List (κ × σ)} :
    SortedKeys (p :: m) ↔ (∀ q ∈ m, KOrd.klt p.1 q.1 = true) ∧ SortedKeys m := by
  simp [SortedKeys, List.pairwise_cons]

theorem lookup_insert_self [KOrd κ] [DecidableEq κ] (k : κ) (v : σ) :
    ∀ m : List (κ × σ), lookup k (insert k v m) = some v
  | [] => by simp [insert, lookup]
  | p :: rest => by
    simp only [insert]
    by_cases h1 : KOrd.klt k p.1 = true
    · simp [h1, lookup]
    · by_cases h2 : k = p.1
      · rw [if_neg h1, if_pos h2]
        simp [lookup]
      · have h3 : p.1 ≠ k := fun hh => h2 hh.symm
        simp [h1, h2, lookup, h3, lookup_insert_self k v rest]

theorem lookup_insert_ne [KOrd κ] [DecidableEq κ] (k k' : κ) (v : σ) (hne : k' ≠ k) :
    ∀ m : List (κ × σ), lookup k' (insert k v m) = lookup k' m
  | [] => by simp [insert, lookup, Ne.symm hne]
  | p :: rest => by
    simp only [insert]
    by_cases h1 : KOrd.klt k p.1 = true
    · simp [h1, lookup, Ne.symm hne]
    · by_cases h2 : k = p.1
      · rw [if_neg h1, if_pos h2]
        have h4 : k ≠ k' := Ne.symm hne
        have h5 : p.1 ≠ k' := h2 ▸ h4
        simp [lookup, h4, h5]
      · simp [h1, h2, lookup, lookup_insert_ne k k' v hne rest]

theorem lookup_erase_ne [DecidableEq κ] (k k' : κ) (hne : k' ≠ k) :
    ∀ m : List (κ × σ), lookup k' (erase k m) = lookup k' m
  | [] => rfl
  | p :: rest => by
    simp only [erase]
    by_cases h1 : p.1 = k
    · simp [h1, lookup, Ne.symm hne]
    · simp [h1, lookup, lookup_erase_ne k k' hne rest]

theorem lookup_eq_none_of_forall_ne [DecidableEq κ] {k : κ} :
    ∀ {m : List (κ × σ)}, (∀ p ∈ m, p.1 ≠ k) → lookup k m = none
  | [], _ => rfl
  | p :: rest, h => by
    have h1 : p.1 ≠ k := h p (List.mem_cons_self p rest)
    have h2 : ∀ q ∈ rest, q.1 ≠ k := fun q hq => h q (List.mem_cons_of_mem p hq)
    simp [lookup, h1, lookup_eq_none_of_forall_ne h2]

theorem lookup_erase_self [KOrd κ] [DecidableEq κ] (k : κ) :
    ∀ m : List (κ × σ), SortedKeys m → lookup k (erase k m) = none
  | [], _ => rfl
  | p :: rest, hs => by
    rcases sorted_cons.mp hs with ⟨h1, h2⟩
    simp only [erase]
    by_cases he : p.1 = k
    · rw [if_pos he]
      refine lookup_eq_none_of_forall_ne (fun q hq hqk => ?_)
      exact ne_of_klt (h1 q hq) (he.trans hqk.symm)
    · rw [if_neg he]
      simp [lookup, he, lookup_erase_self k rest h2]

/-- Membership in an insert result. -/
theorem mem_insert [KOrd κ] [DecidableEq κ] {k : κ} {v : σ} {q : κ × σ} :
    ∀ {m : List (κ × σ)}, q ∈ insert k v m → q = (k, v) ∨ q ∈ m
  | [], h => by simpa [insert] using h
  | p :: rest, h => by
    simp only [insert] at h
    split at h
    · rcases List.mem_cons.mp h with h2 | h2
      · exact Or.inl h2
      · exact Or.inr h2
    · split at h
      · rcases List.mem_cons.mp h with h2 | h2
        · exact Or.inl h2
        · exact Or.inr (List.mem_cons_of_mem p h2)
      · rcases List.mem_cons.mp h with h2 | h2
        · exact Or.inr (h2 ▸ List.mem_cons_self p rest)
        · rcases mem_insert h2 with h3 | h3
          · exact Or.inl h3
          · exact Or.inr (List.mem_cons_of_mem p h3)

theorem sorted_insert [KOrd κ] [DecidableEq κ] (k : κ) (v : σ) :
    ∀ m : List (κ × σ), SortedKeys m → SortedKeys (insert k v m)
  | [], _ => by simp [insert, SortedKeys]
  | p :: rest, hs => by
    rcases sorted_cons.mp hs with ⟨h1, h2⟩
    simp only [insert]
    by_cases hlt : KOrd.klt k p.1 = true
    · rw [if_pos hlt]
      refine sorted_cons.mpr ⟨?_, hs⟩
      intro q hq
      rcases List.mem_cons.mp hq with h3 | h3
      · simp [h3, hlt]
      · exact KOrd.klt_trans _ _ _ hlt (h1 q h3)
    · rw [if_neg hlt]
      by_cases he : k = p.1
      · rw [if_pos he]
        refine sorted_cons.mpr ⟨?_, h2⟩
        intro q hq
        simpa [he] using h1 q hq
      · rw [if_neg he]
        refine sorted_cons.mpr ⟨?_, sorted_insert k v rest h2⟩
        intro q hq
        rcases mem_insert hq with h3 | h3
        · subst h3
          rcases KOrd.klt_total p.1 k (fun hh => he hh.symm) with h4 | h4
          · exact h4
          · exact absurd h4 hlt
        · exact h1 q h3

/-- Erasing yields a sublist. -/
theorem erase_sublist [DecidableEq κ] (k : κ) :
    ∀ m : List (κ × σ), List.Sublist (erase k m) m
  | [] => by simp [erase]
  | p :: rest => by
    simp only [erase]
    split
    · exact List.sublist_cons_self p rest
    · exact List.Sublist.cons₂ p (erase_sublist k rest)

theorem sorted_erase [KOrd κ] [DecidableEq κ] (k : κ) (m : List (κ × σ))
    (hs : SortedKeys m) : SortedKeys (erase k m) :=
  List.Pairwise.sublist (erase_sublist k m) hs

/-- A lookup succeeds exactly on the present keys. -/
theorem lookup_isSome_iff [DecidableEq κ] (k : κ) :
    ∀ m : List (κ × σ), (lookup k m).isSome ↔ k ∈ m.map Prod.fst
  | [] => by simp [lookup]
  | p :: rest => by
    simp only [lookup, List.map_cons, List.mem_cons]
    by_cases h1 : p.1 = k
    · simp [h1]
    · rw [if_neg h1, lookup_isSome_iff k rest]
      constructor
      · exact fun h => Or.inr h
      · rintro (h | h)
        · exact absurd h.symm h1
        · exact h

/-- Inserting the same key into two maps with equal key lists yields
equal key lists. -/
theorem keys_insert_congr [KOrd κ] [DecidableEq κ] (k : κ) (v : σ) (w : τ) :
    ∀ (m1 : List (κ × σ)) (m2 : List (κ × τ)), m1.map Prod.fst = m2.map Prod.fst →
      (insert k v m1).map Prod.fst = (insert k w m2).map Prod.fst
  | [], [], _ => by simp [insert]
  | [], q :: r2, h => by simp at h
  | p :: r1, [], h => by simp at h
  | p :: r1, q :: r2, h => by
    simp only [List.map_cons, List.cons.injEq] at h
    simp only [insert, h.1]
    by_cases h1 : KOrd.klt k q.1 = true
    · simp [h1, h.1, h.2]
    · by_cases h2 : k = q.1
      · rw [if_neg h1, if_neg h1, if_pos h2, if_pos h2]
        simp [h.2]
      · simp [h1, h2, h.1, keys_insert_congr k v w r1 r2 h.2]

/-- Erasing the same key from two maps with equal key lists yields
equal key lists. -/
theorem keys_erase_congr [DecidableEq κ] (k : κ) :
    ∀ (m1 : List (κ × σ)) (m2 : List (κ × τ)), m1.map Prod.fst = m2.map Prod.fst →
      (erase k m1).map Prod.fst = (erase k m2).map Prod.fst
  | [], [], _ => rfl
  | [], q :: r2, h => by simp at h
  | p :: r1, [], h => by simp at h
  | p :: r1, q :: r2, h => by
    simp only [List.map_cons, List.cons.injEq] at h
    simp only [erase, h.1]
    by_cases h1 : q.1 = k
    · simp [h1, h.2]
    · simp [h1, h.1, keys_erase_congr k r1 r2 h.2]

/-- Inserting a present key keeps the key list. -/
theorem keys_insert_of_mem [KOrd κ] [DecidableEq κ] (k : κ) (v : σ) :
    ∀ m : List (κ × σ), (lookup k m).isSome → SortedKeys m →
      (insert k v m).map Prod.fst = m.map Prod.fst
  | [], h, _ => by simp [lookup] at h
  | p :: rest, h, hs => by
    rcases sorted_cons.mp hs with ⟨hp, hrest⟩
    simp only [insert]
    by_cases h2 : k = p.1
    · have h1 : ¬ KOrd.klt k p.1 = true := by
        subst h2
        simp [KOrd.klt_irrefl]
      rw [if_neg h1, if_pos h2]
      simp [h2]
    · have hmem : k ∈ rest.map Prod.fst := by
        have := (lookup_isSome_iff k (p :: rest)).mp h
        simp only [List.map_cons, List.mem_cons] at this
        rcases this with h3 | h3
        · exact absurd h3 h2
        · exact h3
      have h1 : ¬ KOrd.klt k p.1 = true := by
        intro hkp
        rcases List.mem_map.mp hmem with ⟨q, hq, hqk⟩
        exact klt_asymm (hqk ▸ hp q hq) hkp
      simp [h1, h2, keys_insert_of_mem k v rest ((lookup_isSome_iff k rest).mpr hmem) hrest]

/-- Inserting a key above every present key appends. -/
theorem insert_append_of_klt_all [KOrd κ] [DecidableEq κ] (k : κ) (v : σ) :
    ∀ m : List (κ × σ), (∀ p ∈ m, KOrd.klt p.1 k = true) → insert k v m = m ++ [(k, v)]
  | [], _ => rfl
  | p :: rest, h => by
    have hp := h p (List.mem_cons_self p rest)
    have h1 : ¬ KOrd.klt k p.1 = true := fun hh => klt_asymm hp hh
    have h2 : k ≠ p.1 := fun hh => ne_of_klt hp hh.symm
    simp [insert, h1, h2,
      insert_append_of_klt_all k v rest (fun q hq => h q (List.mem_cons_of_mem p hq))]

/-- Inserting a key above every key of a prefix passes the prefix. -/
theorem insert_append_left [KOrd κ] [DecidableEq κ] (k : κ) (v : σ) (l2 : List (κ × σ)) :
    ∀ l1 : List (κ × σ), (∀ p ∈ l1, KOrd.klt p.1 k = true) →
      insert k v (l1 ++ l2) = l1 ++ insert k v l2
  | [], _ => rfl
  | p :: rest, h => by
    have hp := h p (List.mem_cons_self p rest)
    have h1 : ¬ KOrd.klt k p.1 = true := fun hh => klt_asymm hp hh
    have h2 : k ≠ p.1 := fun hh => ne_of_klt hp hh.symm
    simp [insert, h1, h2,
      insert_append_left k v l2 rest (fun q hq => h q (List.mem_cons_of_mem p hq))]

theorem lookup_append_some [DecidableEq κ] (k : κ) (v : σ) (l2 : List (κ × σ)) :
    ∀ l1 : List (κ × σ), lookup k l1 = some v → lookup k (l1 ++ l2) = some v
  | [], h => by simp [lookup] at h
  | p :: rest, h => by
    simp only [lookup] at h ⊢
    by_cases h1 : p.1 = k
    · simpa [h1] using h
    · rw [if_neg h1] at h ⊢
      exact lookup_append_some k v l2 rest h

theorem lookup_append_none [DecidableEq κ] (k : κ) (l2 : List (κ × σ)) :
    ∀ l1 : List (κ × σ), lookup k l1 = none → lookup k (l1 ++ l2) = lookup k l2
  | [], _ => rfl
  | p :: rest, h => by
    simp only [lookup] at h ⊢
    by_cases h1 : p.1 = k
    · simp [h1] at h
    · rw [if_neg h1] at h ⊢
      exact lookup_append_none k l2 rest h

/-- In a sorted map whose keys all fail `klt k ·` and where `k` is
present, the entry of `k` is last. -/
theorem sorted_split_max [KOrd κ] [DecidableEq κ] (k : κ) (v : σ) :
    ∀ m : List (κ × σ), SortedKeys m → (∀ p ∈ m, KOrd.klt k p.1 = false) →
      lookup k m = some v →
      ∃ init, m = init ++ [(k, v)] ∧ (∀ p ∈ init, KOrd.klt p.1 k = true)
  | [], _, _, hl => by simp [lookup] at hl
  | p :: rest, hs, hb, hl => by
    rcases sorted_cons.mp hs with ⟨hp, hrest⟩
    simp only [lookup] at hl
    by_cases h1 : p.1 = k
    · rw [if_pos h1] at hl
      have hnil : rest = [] := by
        cases rest with
        | nil => rfl
        | cons q r =>
          have hq := hp q (List.mem_cons_self q r)
          have := hb q (List.mem_cons_of_mem p (List.mem_cons_self q r))
          rw [h1] at hq
          rw [this] at hq
          exact absurd hq (by simp)
      subst hnil
      refine ⟨[], ?_, by simp⟩
      have hpv : p = (k, v) := by
        rcases p with ⟨pk, pv⟩
        simp at h1 hl
        simp [h1, hl]
      simp [hpv]
    · rw [if_neg h1] at hl
      rcases sorted_split_max k v rest hrest
        (fun q hq => hb q (List.mem_cons_of_mem p hq)) hl with ⟨init, he, hin⟩
      refine ⟨p :: init, by simp [he], fun q hq => ?_⟩
      rcases List.mem_cons.mp hq with h2 | h2
      · subst h2
        rcases KOrd.klt_total q.1 k (fun hh => h1 hh) with h3 | h3
        · exact h3
        · rw [hb q (List.mem_cons_self q rest)] at h3
          exact absurd h3 (by simp)
      · exact hin q h2

end KMap

/-- Every serialised record is at least one byte long. -/
theorem encLen_pos (c : MultipleCmd) : 1 ≤ encLen c := by
  cases c <;> simp [encLen, jsonStrLen] <;> omega

@[simp]
theorem fileSize_nil : fileSize [] = 0 := rfl

@[simp]
theorem fileSize_cons (c : MultipleCmd) (f : LogFile) :
    fileSize (c :: f) = encLen c + fileSize f := by
  simp [fileSize]

@[simp]
theorem fileSize_append (f g : LogFile) : fileSize (f ++ g) = fileSize f + fileSize g := by
  simp [fileSize]

/-- A successful bounded read returns a record of exactly the
requested length. -/
theorem recAt_len : ∀ (f : LogFile) (pos len : Nat) (c : MultipleCmd),
    recAt f pos len = some c → encLen c = len
  | [], _, _, _, h => by simp [recAt] at h
  | d :: rest, pos, len, c, h => by
    simp only [recAt] at h
    by_cases h1 : pos = 0
    · rw [if_pos h1] at h
      by_cases h2 : len = encLen d
      · rw [if_pos h2] at h
        cases h
        exact h2.symm
      · rw [if_neg h2] at h
        cases h
    · rw [if_neg h1] at h
      by_cases h2 : pos < encLen d
      · rw [if_pos h2] at h
        cases h
      · rw [if_neg h2] at h
        exact recAt_len rest _ len c h

/-- Appending records to a file does not disturb reads of existing
records. -/
theorem recAt_append : ∀ (f g : LogFile) (pos len : Nat) (c : MultipleCmd),
    recAt f pos len = some c → recAt (f ++ g) pos len = some c
  | [], _, _, _, _, h => by simp [recAt] at h
  | d :: rest, g, pos, len, c, h => by
    simp only [recAt, List.cons_append] at h ⊢
    by_cases h1 : pos = 0
    · rw [if_pos h1] at h ⊢
      exact h
    · rw [if_neg h1] at h ⊢
      by_cases h2 : pos < encLen d
      · rw [if_pos h2] at h
        cases h
      · rw [if_neg h2] at h ⊢
        exact recAt_append rest g _ len c h

/-- Reading at the size of a prefix returns the record that follows
the prefix. -/
theorem recAt_boundary : ∀ (pre : LogFile) (c : MultipleCmd) (post : LogFile),
    recAt (pre ++ c :: post) (fileSize pre) (encLen c) = some c
  | [], c, post => by simp [recAt]
  | d :: pre, c, post => by
    have hd := encLen_pos d
    have hne : encLen d + fileSize pre ≠ 0 := by omega
    have hlt : ¬ encLen d + fileSize pre < encLen d := by omega
    simp only [List.cons_append, recAt, fileSize_cons]
    rw [if_neg hne, if_neg hlt]
    have : encLen d + fileSize pre - encLen d = fileSize pre := by omega
    rw [this]
    exact recAt_boundary pre c post

/-- Reading through a generation map untouched by an insert of a
different generation. -/
theorem readRec_insert_ne (files : List (Nat × LogFile)) (g g' : Nat) (f : LogFile)
    (pos len : Nat) (hne : g ≠ g') :
    readRec (KMap.insert g' f files) g pos len = readRec files g pos len := by
  simp [readRec, KMap.lookup_insert_ne g' g f hne files]

/-- A successful read implies the generation's file is present. -/
theorem readRec_isSome (files : List (Nat × LogFile)) (g pos len : Nat) (c : MultipleCmd)
    (h : readRec files g pos len = some c) : (KMap.lookup g files).isSome := by
  rw [readRec] at h
  cases hl : KMap.lookup g files with
  | none => rw [hl] at h; cases h
  | some f => rfl

/-- Splitting the replay of one file at a file split point. -/
theorem loadFile_append (g : Nat) :
    ∀ (f1 f2 : LogFile) (pos : Nat) (st : List (String × RecordArgs) × Nat),
      loadFile g pos (f1 ++ f2) st = loadFile g (pos + fileSize f1) f2 (loadFile g pos f1 st)
  | [], f2, pos, st => by simp [loadFile]
  | c :: rest, f2, pos, st => by
    rcases st with ⟨m, u⟩
    cases c with
    | Set k v =>
      simp only [List.cons_append, loadFile, List.append_eq]
      rw [loadFile_append g rest f2]
      simp [Nat.add_assoc]
    | Rm k =>
      simp only [List.cons_append, loadFile, List.append_eq]
      rw [loadFile_append g rest f2]
      simp [Nat.add_assoc]

/-- Replay of a file list with one more file at the end. -/
theorem replayIndex_append (l : List (Nat × LogFile)) (p : Nat × LogFile) :
    replayIndex (l ++ [p]) = (load p.1 p.2 (replayIndex l)).1 := by
  simp [replayIndex, List.foldl_append]

/-- Sortedness only depends on the key list. -/
theorem sorted_iff_keys [KOrd κ] (m : List (κ × σ)) :
    KMap.SortedKeys m ↔ (m.map Prod.fst).Pairwise (fun a b => KOrd.klt a b = true) := by
  rw [KMap.SortedKeys, List.pairwise_map]

/-- A key bound transfers along an equality of key lists. -/
theorem keys_le_congr {m1 : List (Nat × σ)} {m2 : List (Nat × τ)} {n : Nat}
    (hk : m1.map Prod.fst = m2.map Prod.fst) (h : ∀ p ∈ m2, p.1 ≤ n) :
    ∀ p ∈ m1, p.1 ≤ n := by
  intro p hp
  have hmem : p.1 ∈ m2.map Prod.fst := by
    rw [← hk]
    exact List.mem_map_of_mem Prod.fst hp
  rcases List.mem_map.mp hmem with ⟨q, hq, he⟩
  exact he ▸ h q hq

/-- In a well-formed state the files split as everything below the
active generation followed by the active log, and the writer sits at
its end. -/
theorem wf_files_split {s : KvStore} (h : WF s) :
    ∃ init af, s.files = init ++ [(s.log, af)] ∧
      (∀ p ∈ init, KOrd.klt p.1 s.log = true) ∧
      KMap.lookup s.log s.files = some af ∧ s.writerPos = fileSize af := by
  rcases Option.isSome_iff_exists.mp h.active_some with ⟨af, haf⟩
  have hb : ∀ p ∈ s.files, KOrd.klt s.log p.1 = false := by
    intro p hp
    have := h.fle p hp
    show decide (s.log < p.1) = false
    simp only [decide_eq_false_iff_not]
    omega
  rcases KMap.sorted_split_max s.log af s.files h.fsort hb haf with ⟨init, he, hinit⟩
  refine ⟨init, af, he, hinit, haf, ?_⟩
  have := h.wpos
  rw [haf] at this
  simpa using this

/-- Growing one log file at its end preserves every successful read. -/
theorem readRec_grow (files : List (Nat × LogFile)) (g : Nat) (af ext : LogFile)
    (hg : KMap.lookup g files = some af) :
    ∀ g' pos len c, readRec files g' pos len = some c →
      readRec (KMap.insert g (af ++ ext) files) g' pos len = some c := by
  intro g' pos len c h
  by_cases he : g' = g
  · subst he
    rw [readRec, hg] at h
    rw [readRec, KMap.lookup_insert_self]
    exact recAt_append af ext pos len c h
  · rw [readRec_insert_ne _ _ _ _ _ _ he]
    exact h

/-- Specification of the write-and-index part of `set`: it returns a
well-formed state with the same active generation and readers, counts
the replaced entry as stale, and updates the engine's key/value map at
exactly the written key. -/
theorem setCore_spec (s : KvStore) (k v : String) (h : WF s) :
    WF (s.setCore k v) ∧
    (s.setCore k v).log = s.log ∧
    (s.setCore k v).readers = s.readers ∧
    (s.setCore k v).uncompacted =
      (match KMap.lookup k s.records with
       | some o => s.uncompacted + o.len
       | none => s.uncompacted) ∧
    (∀ k', absv (s.setCore k v) k' = if k' = k then some v else absv s k') := by
  rcases wf_files_split h with ⟨init, af, hsplit, hinit, haf, hw⟩
  set cmd := MultipleCmd.Set k v with hcmd
  have hlen : s.writerPos + encLen cmd - s.writerPos = encLen cmd := by omega
  have hfiles' : (s.setCore k v).files = KMap.insert s.log (af ++ [cmd]) s.files := by
    simp [KvStore.setCore, haf]
  have hrecs' : (s.setCore k v).records =
      KMap.insert k ⟨s.log, s.writerPos, encLen cmd⟩ s.records := by
    simp [KvStore.setCore, hlen]
  have hkeys : (KMap.insert s.log (af ++ [cmd]) s.files).map Prod.fst =
      s.files.map Prod.fst :=
    KMap.keys_insert_of_mem s.log (af ++ [cmd]) s.files h.active_some h.fsort
  have hreadRec : ∀ g' pos len c, readRec s.files g' pos len = some c →
      readRec (s.setCore k v).files g' pos len = some c := by
    rw [hfiles']
    exact readRec_grow s.files s.log af [cmd] haf
  have hlookupActive : KMap.lookup s.log (s.setCore k v).files = some (af ++ [cmd]) := by
    rw [hfiles']
    exact KMap.lookup_insert_self s.log (af ++ [cmd]) s.files
  have hnew : readRec (s.setCore k v).files s.log s.writerPos (encLen cmd) = some cmd := by
    rw [readRec, hlookupActive, hw]
    have : af ++ [cmd] = af ++ cmd :: [] := rfl
    rw [this]
    exact recAt_boundary af cmd []
  have hwf : WF (s.setCore k v) := by
    refine ⟨?_, ?_, ?_, ?_, ?_, ?_, ?_, ?_⟩
    · rw [hrecs']
      exact KMap.sorted_insert _ _ _ h.rsort
    · rw [hfiles', sorted_iff_keys, hkeys, ← sorted_iff_keys]
      exact h.fsort
    · show (s.setCore k v).readers.map Prod.fst = _
      rw [hfiles', hkeys]
      show s.readers.map Prod.fst = _
      exact h.gens
    · show ∀ p ∈ (s.setCore k v).files, p.1 ≤ (s.setCore k v).log
      rw [hfiles']
      exact keys_le_congr hkeys h.fle
    · show (KMap.lookup (s.setCore k v).log (s.setCore k v).files).isSome
      show (KMap.lookup s.log (s.setCore k v).files).isSome
      rw [hlookupActive]
      rfl
    · show (s.setCore k v).writerPos =
        fileSize ((KMap.lookup (s.setCore k v).log (s.setCore k v).files).getD [])
      show s.writerPos + encLen cmd =
        fileSize ((KMap.lookup s.log (s.setCore k v).files).getD [])
      rw [hlookupActive, hw]
      simp
    · intro k' r' hl
      rw [hrecs'] at hl
      by_cases he : k' = k
      · subst he
        rw [KMap.lookup_insert_self] at hl
        cases hl
        exact ⟨v, hnew⟩
      · rw [KMap.lookup_insert_ne k k' _ he] at hl
        rcases h.points k' r' hl with ⟨w, hww⟩
        exact ⟨w, hreadRec _ _ _ _ hww⟩
    · show replayIndex (s.setCore k v).files = (s.setCore k v).records
      rw [hfiles', hrecs', hsplit]
      rw [KMap.insert_append_left s.log _ _ init hinit]
      have hsingle : KMap.insert s.log (af ++ [cmd]) [(s.log, af)] = [(s.log, af ++ [cmd])] := by
        simp [KMap.insert, KOrd.klt_irrefl]
      rw [hsingle, replayIndex_append]
      have hload : load s.log (af ++ [cmd]) (replayIndex init) =
          loadFile s.log (fileSize af) [cmd]
            (loadFile s.log 0 af (replayIndex init, 0)) := by
        rw [load, loadFile_append]
        simp
      rw [hload]
      have hrepl : replayIndex s.files = s.records := h.replay
      rw [hsplit, replayIndex_append] at hrepl
      rcases hstep : loadFile s.log 0 af (replayIndex init, 0) with ⟨m0, u0⟩
      have hm0 : m0 = s.records := by
        rw [← hrepl, load, hstep]
      simp only [loadFile, hcmd]
      have harith : fileSize af + encLen cmd - fileSize af = encLen cmd := by omega
      simp [harith, hm0, hw]
  refine ⟨hwf, rfl, rfl, rfl, ?_⟩
  intro k'
  by_cases he : k' = k
  · subst he
    rw [if_pos rfl]
    simp [absv, hrecs', KMap.lookup_insert_self, hnew, hcmd]
  · rw [if_neg he]
    simp only [absv, hrecs', KMap.lookup_insert_ne k k' _ he]
    cases hl : KMap.lookup k' s.records with
    | none => rfl
    | some r' =>
      rcases h.points k' r' hl with ⟨w, hww⟩
      have h2 := hreadRec _ _ _ _ hww
      simp [hww, h2]

/-- Removing an absent key fails with `KeyNotFound` and leaves the
state untouched. -/
theorem remove_absent (s : KvStore) (k : String)
    (h : KMap.lookup k s.records = none) :
    s.remove k = (.error .KeyNotFound, s) := by
  simp [KvStore.remove, h]

/-- The readers map of a well-formed state is sorted (its keys are the
file keys). -/
theorem wf_readers_sorted {s : KvStore} (h : WF s) : KMap.SortedKeys s.readers := by
  rw [sorted_iff_keys, h.gens, ← sorted_iff_keys]
  exact h.fsort

/-- Specification of `remove` on a present key: it succeeds, stays
well-formed, keeps the active generation, readers and file set, counts
only the retired entry's length as stale, and clears exactly the given
key in the engine's key/value map. -/
theorem remove_present_spec (s : KvStore) (k : String) (old : RecordArgs) (h : WF s)
    (hl : KMap.lookup k s.records = some old) :
    (s.remove k).1 = .ok () ∧
    WF (s.remove k).2 ∧
    (s.remove k).2.log = s.log ∧
    (s.remove k).2.readers = s.readers ∧
    (s.remove k).2.uncompacted = s.uncompacted + old.len ∧
    (s.remove k).2.files.map Prod.fst = s.files.map Prod.fst ∧
    (∀ k', absv (s.remove k).2 k' = if k' = k then none else absv s k') := by
  rcases wf_files_split h with ⟨init, af, hsplit, hinit, haf, hw⟩
  set cmd := MultipleCmd.Rm k with hcmd
  have hresult : s.remove k =
      (.ok (), { s with writerPos := s.writerPos + encLen cmd,
                        files := KMap.insert s.log (af ++ [cmd]) s.files,
                        records := KMap.erase k s.records,
                        uncompacted := s.uncompacted + old.len }) := by
    rw [KvStore.remove]
    rw [if_pos (by rw [hl]; rfl)]
    simp [hl, haf]
  set s' := (s.remove k).2 with hs'
  have hfiles' : s'.files = KMap.insert s.log (af ++ [cmd]) s.files := by
    rw [hs', hresult]
  have hrecs' : s'.records = KMap.erase k s.records := by
    rw [hs', hresult]
  have hkeys : (KMap.insert s.log (af ++ [cmd]) s.files).map Prod.fst =
      s.files.map Prod.fst :=
    KMap.keys_insert_of_mem s.log (af ++ [cmd]) s.files h.active_some h.fsort
  have hreadRec : ∀ g' pos len c, readRec s.files g' pos len = some c →
      readRec s'.files g' pos len = some c := by
    rw [hfiles']
    exact readRec_grow s.files s.log af [cmd] haf
  have hlog : s'.log = s.log := by rw [hs', hresult]
  have hwp : s'.writerPos = s.writerPos + encLen cmd := by rw [hs', hresult]
  have hlookupActive : KMap.lookup s.log s'.files = some (af ++ [cmd]) := by
    rw [hfiles']
    exact KMap.lookup_insert_self s.log (af ++ [cmd]) s.files
  have hwf : WF s' := by
    refine ⟨?_, ?_, ?_, ?_, ?_, ?_, ?_, ?_⟩
    · rw [hrecs']
      exact KMap.sorted_erase _ _ h.rsort
    · rw [hfiles', sorted_iff_keys, hkeys, ← sorted_iff_keys]
      exact h.fsort
    · show s'.readers.map Prod.fst = s'.files.map Prod.fst
      rw [hfiles', hkeys]
      have : s'.readers = s.readers := by rw [hs', hresult]
      rw [this]
      exact h.gens
    · show ∀ p ∈ s'.files, p.1 ≤ s'.log
      rw [hfiles', hlog]
      exact keys_le_congr hkeys h.fle
    · show (KMap.lookup s'.log s'.files).isSome
      rw [hlog, hlookupActive]
      rfl
    · show s'.writerPos = fileSize ((KMap.lookup s'.log s'.files).getD [])
      rw [hlog, hlookupActive, hwp, hw]
      simp
    · intro k' r' hlr
      rw [hrecs'] at hlr
      by_cases he : k' = k
      · subst he
        rw [KMap.lookup_erase_self k' s.records h.rsort] at hlr
        cases hlr
      · rw [KMap.lookup_erase_ne k k' he] at hlr
        rcases h.points k' r' hlr with ⟨w, hww⟩
        exact ⟨w, hreadRec _ _ _ _ hww⟩
    · show replayIndex s'.files = s'.records
      rw [hfiles', hrecs', hsplit]
      rw [KMap.insert_append_left s.log _ _ init hinit]
      have hsingle : KMap.insert s.log (af ++ [cmd]) [(s.log, af)] = [(s.log, af ++ [cmd])] := by
        simp [KMap.insert, KOrd.klt_irrefl]
      rw [hsingle, replayIndex_append]
      have hload : load s.log (af ++ [cmd]) (replayIndex init) =
          loadFile s.log (fileSize af) [cmd]
            (loadFile s.log 0 af (replayIndex init, 0)) := by
        rw [load, loadFile_append]
        simp
      rw [hload]
      have hrepl : replayIndex s.files = s.records := h.replay
      rw [hsplit, replayIndex_append] at hrepl
      rcases hstep : loadFile s.log 0 af (replayIndex init, 0) with ⟨m0, u0⟩
      have hm0 : m0 = s.records := by
        rw [← hrepl, load, hstep]
      simp only [loadFile, hcmd]
      simp [hm0]
  refine ⟨by rw [hresult], hwf, hlog, by rw [hs', hresult], by rw [hs', hresult],
    by rw [hfiles', hkeys], ?_⟩
  intro k'
  by_cases he : k' = k
  · subst he
    rw [if_pos rfl, absv, hrecs', KMap.lookup_erase_self k' s.records h.rsort]
  · rw [if_neg he]
    simp only [absv, hrecs', KMap.lookup_erase_ne k k' he]
    cases hlr : KMap.lookup k' s.records with
    | none => rfl
    | some r' =>
      rcases h.points k' r' hlr with ⟨w, hww⟩
      have h2 := hreadRec _ _ _ _ hww
      simp [hww, h2]

/-- Specification of `get` in a well-formed state: it returns the
engine's current value for the key and changes nothing but the reader
positions (the touched generation's reader ends up just past the
record read). -/
theorem get_spec (s : KvStore) (k : String) (h : WF s) :
    (s.get k).1 = .ok (absv s k) ∧
    (s.get k).2.records = s.records ∧
    (s.get k).2.uncompacted = s.uncompacted ∧
    (s.get k).2.log = s.log ∧
    (s.get k).2.files = s.files ∧
    (s.get k).2.writerPos = s.writerPos ∧
    (s.get k).2.readers.map Prod.fst = s.readers.map Prod.fst := by
  cases hl : KMap.lookup k s.records with
  | none =>
    have : s.get k = (.ok none, s) := by simp [KvStore.get, hl]
    rw [this]
    simp [absv, hl]
  | some r =>
    rcases h.points k r hl with ⟨w, hww⟩
    have hfile : (KMap.lookup r.log s.files).isSome := readRec_isSome _ _ _ _ _ hww
    have hrdr : (KMap.lookup r.log s.readers).isSome := by
      rw [KMap.lookup_isSome_iff] at hfile ⊢
      rw [h.gens]
      exact hfile
    rcases Option.isSome_iff_exists.mp hrdr with ⟨rp, hrp⟩
    have hres : s.get k =
        (.ok (some w),
         { s with readers := KMap.insert r.log (r.pos + r.len) s.readers }) := by
      simp [KvStore.get, hl, hrp, hww]
    rw [hres]
    refine ⟨?_, rfl, rfl, rfl, rfl, rfl, ?_⟩
    · simp [absv, hl, hww]
    · exact KMap.keys_insert_of_mem r.log (r.pos + r.len) s.readers hrdr
        (wf_readers_sorted h)

/-- A successful generation read returns a record of the requested
length. -/
theorem readRec_len (files : List (Nat × LogFile)) (g pos len : Nat) (c : MultipleCmd)
    (h : readRec files g pos len = some c) : encLen c = len := by
  rw [readRec] at h
  cases hl : KMap.lookup g files with
  | none => rw [hl] at h; cases h
  | some f =>
    rw [hl] at h
    exact recAt_len f pos len c h

/-- Appending fresh files at the end of the directory preserves every
successful read. -/
theorem readRec_append_files (files ext : List (Nat × LogFile)) (g pos len : Nat)
    (c : MultipleCmd) (h : readRec files g pos len = some c) :
    readRec (files ++ ext) g pos len = some c := by
  rw [readRec] at h ⊢
  cases hl : KMap.lookup g files with
  | none => rw [hl] at h; cases h
  | some f =>
    rw [hl] at h
    rw [KMap.lookup_append_some g f ext files hl]
    exact h

/-- Inserting never removes keys from a map. -/
theorem lookup_insert_isSome [KOrd κ] [DecidableEq κ] (k k' : κ) (v : σ)
    (m : List (κ × σ)) (h : (KMap.lookup k m).isSome) :
    (KMap.lookup k (KMap.insert k' v m)).isSome := by
  by_cases he : k = k'
  · subst he
    rw [KMap.lookup_insert_self]
    rfl
  · rw [KMap.lookup_insert_ne k' k v he]
    exact h

/-- Erasing the head key drops exactly the head of the key list. -/
theorem keys_erase_head (g : Nat) (ks : List Nat) :
    ∀ (rd : List (Nat × Nat)), rd.map Prod.fst = g :: ks →
      (KMap.erase g rd).map Prod.fst = ks := by
  intro rd h
  cases rd with
  | nil => simp at h
  | cons q rd' =>
    simp only [List.map_cons, List.cons.injEq] at h
    simp [KMap.erase, h.1, h.2]

/-- Rewriting the index entries keeps the key list. -/
theorem keys_rewriteRecs (clog : Nat) :
    ∀ (p : Nat) (recs : List (String × RecordArgs)),
      (rewriteRecs clog p recs).map Prod.fst = recs.map Prod.fst
  | _, [] => rfl
  | p, (k, r) :: rest => by
    simp [rewriteRecs, keys_rewriteRecs clog (p + r.len) rest]

/-- Characterisation of the `compact` copy loop: under the pointing
invariant it succeeds, appends the rewritten entries and the copied
records, advances `new_pos` by the copied length, and keeps the reader
key set. -/
theorem compactLoop_spec (files : List (Nat × LogFile)) (clog : Nat) :
    ∀ (recs : List (String × RecordArgs)) (st : CState),
      (∀ k r, (k, r) ∈ recs → ∃ v, readRec files r.log r.pos r.len = some (.Set k v)) →
      (∀ k r, (k, r) ∈ recs → (KMap.lookup r.log st.rdrs).isSome) →
      KMap.SortedKeys st.rdrs →
      ∃ st', compactLoop files clog recs st = .ok st' ∧
        st'.recs = st.recs ++ rewriteRecs clog st.pos recs ∧
        st'.comp = st.comp ++ liveCmds files recs ∧
        st'.pos = st.pos + sumLens recs ∧
        st'.rdrs.map Prod.fst = st.rdrs.map Prod.fst
  | [], st, _, _, _ => ⟨st, rfl, by simp [rewriteRecs], by simp [liveCmds],
      by simp [sumLens], rfl⟩
  | (k, r) :: rest, st, hp, hr, hs => by
    rcases hp k r (List.mem_cons_self _ _) with ⟨v, hv⟩
    have hrd := hr k r (List.mem_cons_self _ _)
    rcases Option.isSome_iff_exists.mp hrd with ⟨rv, hrv⟩
    set st1 : CState :=
      { recs := st.recs ++ [(k, ⟨clog, st.pos, r.len⟩)],
        comp := st.comp ++ [.Set k v],
        pos := st.pos + r.len,
        rdrs := KMap.insert r.log (r.pos + r.len) st.rdrs } with hst1
    have hk1 : st1.rdrs.map Prod.fst = st.rdrs.map Prod.fst :=
      KMap.keys_insert_of_mem r.log (r.pos + r.len) st.rdrs hrd hs
    have hstep : compactLoop files clog ((k, r) :: rest) st =
        compactLoop files clog rest st1 := by
      rw [compactLoop, hrv, hv]
    rcases compactLoop_spec files clog rest st1
        (fun k' r' hm => hp k' r' (List.mem_cons_of_mem _ hm))
        (fun k' r' hm => by
          rw [hst1]
          exact lookup_insert_isSome _ _ _ _ (hr k' r' (List.mem_cons_of_mem _ hm)))
        (by rw [hst1]; exact KMap.sorted_insert _ _ _ hs)
      with ⟨st', hloop, h1, h2, h3, h4⟩
    refine ⟨st', by rw [hstep, hloop], ?_, ?_, ?_, ?_⟩
    · rw [h1, hst1]
      simp [rewriteRecs]
    · rw [h2, hst1]
      simp [liveCmds, hv]
    · rw [h3, hst1]
      simp [sumLens]
      omega
    · rw [h4, hst1, hk1]

/-- Where each live record lands in the compaction file: looking up a
key in the rewritten index yields an entry into `clog` whose range
reads back exactly the bytes the original entry read. -/
theorem rewrite_lookup (clog : Nat) (files : List (Nat × LogFile)) :
    ∀ (recs : List (String × RecordArgs)) (comp0 : LogFile) (k : String) (r0 : RecordArgs),
      (∀ k' r', (k', r') ∈ recs → ∃ v, readRec files r'.log r'.pos r'.len = some (.Set k' v)) →
      KMap.lookup k recs = some r0 →
      ∃ q, KMap.lookup k (rewriteRecs clog (fileSize comp0) recs) = some ⟨clog, q, r0.len⟩ ∧
        recAt (comp0 ++ liveCmds files recs) q r0.len = readRec files r0.log r0.pos r0.len
  | [], _, k, r0, _, hl => by simp [KMap.lookup] at hl
  | (k0, r0') :: rest, comp0, k, r0, hp, hl => by
    rcases hp k0 r0' (List.mem_cons_self _ _) with ⟨v0, hv0⟩
    have hlen0 : encLen (.Set k0 v0) = r0'.len := readRec_len _ _ _ _ _ hv0
    simp only [rewriteRecs, liveCmds, KMap.lookup, hv0, Option.getD_some]
    simp only [KMap.lookup] at hl
    by_cases he : k0 = k
    · rw [if_pos he] at hl ⊢
      cases hl
      refine ⟨fileSize comp0, rfl, ?_⟩
      rw [hv0, ← hlen0]
      exact recAt_boundary comp0 (.Set k0 v0) (liveCmds files rest)
    · rw [if_neg he] at hl ⊢
      rcases rewrite_lookup clog files rest (comp0 ++ [.Set k0 v0]) k r0
          (fun k' r' hm => hp k' r' (List.mem_cons_of_mem _ hm)) hl with ⟨q, h1, h2⟩
      have hsz : fileSize (comp0 ++ [.Set k0 v0]) = fileSize comp0 + r0'.len := by
        simp [hlen0]
      rw [hsz] at h1
      refine ⟨q, h1, ?_⟩
      rw [← h2]
      simp

/-- Replaying the compaction file reconstructs exactly the rewritten
index. -/
theorem load_liveCmds (clog : Nat) (files : List (Nat × LogFile)) :
    ∀ (recs : List (String × RecordArgs)) (comp0 : LogFile)
      (m0 : List (String × RecordArgs)) (u0 : Nat),
      (∀ k' r', (k', r') ∈ recs → ∃ v, readRec files r'.log r'.pos r'.len = some (.Set k' v)) →
      KMap.SortedKeys recs →
      (∀ p ∈ m0, ∀ q ∈ recs, KOrd.klt p.1 q.1 = true) →
      (loadFile clog (fileSize comp0) (liveCmds files recs) (m0, u0)).1 =
        m0 ++ rewriteRecs clog (fileSize comp0) recs
  | [], comp0, m0, u0, _, _, _ => by simp [liveCmds, loadFile, rewriteRecs]
  | (k0, r0) :: rest, comp0, m0, u0, hp, hs, hm => by
    rcases hp k0 r0 (List.mem_cons_self _ _) with ⟨v0, hv0⟩
    have hlen0 : encLen (.Set k0 v0) = r0.len := readRec_len _ _ _ _ _ hv0
    rcases KMap.sorted_cons.mp hs with ⟨hs1, hs2⟩
    have hm0lt : ∀ p ∈ m0, KOrd.klt p.1 k0 = true := by
      intro p hq
      exact hm p hq (k0, r0) (List.mem_cons_self _ _)
    simp only [liveCmds, hv0, Option.getD_some, loadFile]
    have harith : fileSize comp0 + encLen (.Set k0 v0) - fileSize comp0 =
        encLen (.Set k0 v0) := by omega
    rw [harith]
    have hins : KMap.insert k0
        ⟨clog, fileSize comp0, encLen (.Set k0 v0)⟩ m0 =
        m0 ++ [(k0, ⟨clog, fileSize comp0, encLen (.Set k0 v0)⟩)] :=
      KMap.insert_append_of_klt_all k0 _ m0 hm0lt
    rw [hins]
    have hnext : fileSize comp0 + encLen (.Set k0 v0) =
        fileSize (comp0 ++ [.Set k0 v0]) := by simp
    rw [hnext]
    have := load_liveCmds clog files rest (comp0 ++ [.Set k0 v0])
        (m0 ++ [(k0, ⟨clog, fileSize comp0, encLen (.Set k0 v0)⟩)])
        (match KMap.lookup k0 m0 with
         | some old_cmd => u0 + old_cmd.len
         | none => u0)
        (fun k' r' hmem => hp k' r' (List.mem_cons_of_mem _ hmem))
        hs2
        (by
          intro p hq q hqr
          rcases List.mem_append.mp hq with h1 | h1
          · exact hm p h1 q (List.mem_cons_of_mem _ hqr)
          · rcases List.mem_singleton.mp h1 with rfl
            exact hs1 q hqr)
    rw [this]
    simp only [rewriteRecs, hlen0]
    have : fileSize (comp0 ++ [MultipleCmd.Set k0 v0]) = fileSize comp0 + r0.len := by
      simp [hlen0]
    rw [this]
    simp

/-- Retiring the generations of a directory prefix deletes exactly
that prefix, together with the matching reader entries. -/
theorem retire_prefix :
    ∀ (l1 l2 : List (Nat × LogFile)) (rd : List (Nat × Nat)),
      rd.map Prod.fst = (l1 ++ l2).map Prod.fst →
      ∃ rd', retire (l1.map Prod.fst) (rd, l1 ++ l2) = .ok (rd', l2) ∧
        rd'.map Prod.fst = l2.map Prod.fst
  | [], l2, rd, h => ⟨rd, rfl, by simpa using h⟩
  | p :: l1', l2, rd, h => by
    have hlk : KMap.lookup p.1 (p :: (l1' ++ l2)) = some p.2 := by
      simp [KMap.lookup]
    have herase : KMap.erase p.1 (p :: (l1' ++ l2)) = l1' ++ l2 := by
      simp [KMap.erase]
    have hkeys : (KMap.erase p.1 rd).map Prod.fst = (l1' ++ l2).map Prod.fst := by
      apply keys_erase_head p.1
      simpa using h
    rcases retire_prefix l1' l2 (KMap.erase p.1 rd) hkeys with ⟨rd', h1, h2⟩
    refine ⟨rd', ?_, h2⟩
    simp only [List.map_cons, List.cons_append, retire, hlk, herase]
    exact h1

/-- In a sorted map membership determines the lookup result. -/
theorem lookup_of_mem_sorted [KOrd κ] [DecidableEq κ] {k : κ} {r : σ} :
    ∀ {m : List (κ × σ)}, KMap.SortedKeys m → (k, r) ∈ m → KMap.lookup k m = some r
  | [], _, hm => by cases hm
  | p :: rest, hs, hm => by
    rcases KMap.sorted_cons.mp hs with ⟨h1, h2⟩
    rcases List.mem_cons.mp hm with h3 | h3
    · rw [KMap.lookup, ← h3]
      simp
    · have h4 : KOrd.klt p.1 k = true := h1 (k, r) h3
      have hne : p.1 ≠ k := KMap.ne_of_klt h4
      rw [KMap.lookup, if_neg hne]
      exact lookup_of_mem_sorted h2 h3

/-- Full specification of `KvStore::compact` from a well-formed state:
it succeeds, the result is well-formed, the active generation advances
by two, the stale counter resets, no key's value changes, every index
entry points into the compaction generation `log + 1`, and every
generation below it has lost both its reader and its file. -/
theorem compact_spec (s : KvStore) (h : WF s) :
    ∃ s', s.compact = (.ok (), s') ∧ WF s' ∧
      s'.log = s.log + 2 ∧ s'.uncompacted = 0 ∧ s'.writerPos = 0 ∧
      (∀ k', absv s' k' = absv s k') ∧
      (∀ k r, KMap.lookup k s'.records = some r → r.log = s.log + 1) ∧
      (∀ g, g < s.log + 1 →
        KMap.lookup g s'.readers = none ∧ KMap.lookup g s'.files = none) := by
  have hkltlog2 : ∀ p ∈ s.files, KOrd.klt p.1 (s.log + 2) = true := by
    intro p hp
    have := h.fle p hp
    show decide (p.1 < s.log + 2) = true
    simp only [decide_eq_true_eq]
    omega
  have hkltclog : ∀ p ∈ s.files, KOrd.klt p.1 (s.log + 1) = true := by
    intro p hp
    have := h.fle p hp
    show decide (p.1 < s.log + 1) = true
    simp only [decide_eq_true_eq]
    omega
  have hF1 : KMap.insert (s.log + 2) ([] : LogFile) s.files =
      s.files ++ [(s.log + 2, [])] :=
    KMap.insert_append_of_klt_all _ _ s.files hkltlog2
  have hkltpair : KOrd.klt (s.log + 1) (s.log + 2) = true := by
    show decide (s.log + 1 < s.log + 2) = true
    simp only [decide_eq_true_eq]
    omega
  have hF2 : KMap.insert (s.log + 1) ([] : LogFile)
      (KMap.insert (s.log + 2) ([] : LogFile) s.files) =
      s.files ++ [(s.log + 1, []), (s.log + 2, [])] := by
    rw [hF1, KMap.insert_append_left _ _ _ s.files hkltclog]
    simp [KMap.insert, hkltpair]
  have hF3 : (KMap.insert (s.log + 1) 0 (KMap.insert (s.log + 2) 0 s.readers)).map Prod.fst =
      (KMap.insert (s.log + 1) ([] : LogFile)
        (KMap.insert (s.log + 2) ([] : LogFile) s.files)).map Prod.fst :=
    KMap.keys_insert_congr _ _ _ _ _ (KMap.keys_insert_congr _ _ _ _ _ h.gens)
  have hF4 : ∀ k r, (k, r) ∈ s.records →
      ∃ v, readRec (KMap.insert (s.log + 1) ([] : LogFile)
        (KMap.insert (s.log + 2) ([] : LogFile) s.files)) r.log r.pos r.len =
        some (.Set k v) := by
    intro k r hm
    rcases h.points k r (lookup_of_mem_sorted h.rsort hm) with ⟨v, hv⟩
    rw [hF2]
    exact ⟨v, readRec_append_files _ _ _ _ _ _ hv⟩
  have hF5 : ∀ k r, (k, r) ∈ s.records →
      (KMap.lookup r.log
        (KMap.insert (s.log + 1) 0 (KMap.insert (s.log + 2) 0 s.readers))).isSome := by
    intro k r hm
    rcases h.points k r (lookup_of_mem_sorted h.rsort hm) with ⟨v, hv⟩
    have hfl : (KMap.lookup r.log s.files).isSome := readRec_isSome _ _ _ _ _ hv
    have hrd : (KMap.lookup r.log s.readers).isSome := by
      rw [KMap.lookup_isSome_iff] at hfl ⊢
      rw [h.gens]
      exact hfl
    exact lookup_insert_isSome _ _ _ _ (lookup_insert_isSome _ _ _ _ hrd)
  have hF6 : KMap.SortedKeys (KMap.insert (s.log + 1) 0 (KMap.insert (s.log + 2) 0 s.readers)) :=
    KMap.sorted_insert _ _ _ (KMap.sorted_insert _ _ _ (wf_readers_sorted h))
  rcases compactLoop_spec
      (KMap.insert (s.log + 1) ([] : LogFile) (KMap.insert (s.log + 2) ([] : LogFile) s.files))
      (s.log + 1) s.records
      ⟨[], [], 0, KMap.insert (s.log + 1) 0 (KMap.insert (s.log + 2) 0 s.readers)⟩
      hF4 (fun k r hm => hF5 k r hm) hF6 with ⟨st, hloop, hrecs, hcomp, hpos, hrdk⟩
  simp only [List.nil_append] at hrecs hcomp
  have hrdkeys : st.rdrs.map Prod.fst = s.files.map Prod.fst ++ [s.log + 1, s.log + 2] := by
    rw [hrdk]
    show (KMap.insert (s.log + 1) 0 (KMap.insert (s.log + 2) 0 s.readers)).map Prod.fst = _
    rw [hF3, hF2]
    simp
  have hstale : (st.rdrs.map Prod.fst).filter (fun g => decide (g < s.log + 1)) =
      s.files.map Prod.fst := by
    rw [hrdkeys, List.filter_append]
    have e1 : (s.files.map Prod.fst).filter (fun g => decide (g < s.log + 1)) =
        s.files.map Prod.fst := by
      rw [List.filter_eq_self]
      intro a ha
      rcases List.mem_map.mp ha with ⟨p, hp, he⟩
      have := h.fle p hp
      simp only [decide_eq_true_eq]
      omega
    have e2 : ([s.log + 1, s.log + 2].filter (fun g => decide (g < s.log + 1))) = [] := by
      have c1 : (decide (s.log + 1 < s.log + 1)) = false := by
        simp only [decide_eq_false_iff_not]
        omega
      have c2 : (decide (s.log + 2 < s.log + 1)) = false := by
        simp only [decide_eq_false_iff_not]
        omega
      simp [List.filter, c1, c2]
    rw [e1, e2, List.append_nil]
  have hrdall : st.rdrs.map Prod.fst =
      (s.files ++ [(s.log + 1, ([] : LogFile)), (s.log + 2, ([] : LogFile))]).map Prod.fst := by
    rw [hrdkeys]
    simp
  rcases retire_prefix s.files [(s.log + 1, ([] : LogFile)), (s.log + 2, ([] : LogFile))]
      st.rdrs hrdall with ⟨rd', hretire, hrdk2⟩
  have hrdk2' : rd'.map Prod.fst = [s.log + 1, s.log + 2] := by
    rw [hrdk2]
    simp
  have hfinalfiles : KMap.insert (s.log + 1) st.comp
      [(s.log + 1, ([] : LogFile)), (s.log + 2, ([] : LogFile))] =
      [(s.log + 1, st.comp), (s.log + 2, ([] : LogFile))] := by
    simp [KMap.insert, KOrd.klt_irrefl]
  have hcompact : s.compact = (.ok (),
      { log := s.log + 2, uncompacted := 0, writerPos := 0,
        readers := rd',
        files := [(s.log + 1, st.comp), (s.log + 2, ([] : LogFile))],
        records := st.recs }) := by
    rw [KvStore.compact]
    simp only [hloop, hstale]
    rw [← hF2] at hretire
    simp only [hretire]
    rw [hfinalfiles]
  have hkeysrec : st.recs.map Prod.fst = s.records.map Prod.fst := by
    rw [hrecs]
    exact keys_rewriteRecs _ _ _
  have hP1 : ∀ k r0, KMap.lookup k s.records = some r0 →
      ∃ q v, KMap.lookup k st.recs = some ⟨s.log + 1, q, r0.len⟩ ∧
        recAt st.comp q r0.len = some (.Set k v) ∧
        readRec s.files r0.log r0.pos r0.len = some (.Set k v) := by
    intro k r0 hl
    rcases h.points k r0 hl with ⟨v, hv⟩
    have hv1 : readRec (KMap.insert (s.log + 1) ([] : LogFile)
        (KMap.insert (s.log + 2) ([] : LogFile) s.files)) r0.log r0.pos r0.len =
        some (.Set k v) := by
      rw [hF2]
      exact readRec_append_files _ _ _ _ _ _ hv
    rcases rewrite_lookup (s.log + 1)
        (KMap.insert (s.log + 1) ([] : LogFile) (KMap.insert (s.log + 2) ([] : LogFile) s.files))
        s.records [] k r0 hF4 hl with ⟨q, hq1, hq2⟩
    simp only [fileSize_nil, List.nil_append] at hq1 hq2
    refine ⟨q, v, ?_, ?_, hv⟩
    · rw [hrecs]
      exact hq1
    · rw [hcomp, hq2, hv1]
  have hne12 : (s.log + 1 : Nat) ≠ s.log + 2 := by omega
  have hlookC : KMap.lookup (s.log + 1)
      [(s.log + 1, st.comp), (s.log + 2, ([] : LogFile))] = some st.comp := by
    simp [KMap.lookup]
  have hlookA : KMap.lookup (s.log + 2)
      [(s.log + 1, st.comp), (s.log + 2, ([] : LogFile))] = some ([] : LogFile) := by
    simp [KMap.lookup, hne12]
  have hnone_trans : ∀ k', KMap.lookup k' s.records = none →
      KMap.lookup k' st.recs = none := by
    intro k' hl0
    have h1 : ¬ (KMap.lookup k' st.recs).isSome = true := by
      rw [KMap.lookup_isSome_iff, hkeysrec, ← KMap.lookup_isSome_iff, hl0]
      simp
    exact Option.not_isSome_iff_eq_none.mp h1
  have hwf : WF
      ({ log := s.log + 2, uncompacted := 0, writerPos := 0,
         readers := rd',
         files := [(s.log + 1, st.comp), (s.log + 2, ([] : LogFile))],
         records := st.recs } : KvStore) := by
    refine ⟨?_, ?_, ?_, ?_, ?_, ?_, ?_, ?_⟩
    · show KMap.SortedKeys st.recs
      rw [sorted_iff_keys, hkeysrec, ← sorted_iff_keys]
      exact h.rsort
    · show KMap.SortedKeys [(s.log + 1, st.comp), (s.log + 2, ([] : LogFile))]
      simp [KMap.SortedKeys, hkltpair]
    · show rd'.map Prod.fst = _
      rw [hrdk2']
      simp
    · intro p hp
      simp only [List.mem_cons, List.mem_singleton] at hp
      rcases hp with rfl | rfl | hp
      · show s.log + 1 ≤ s.log + 2
        omega
      · show s.log + 2 ≤ s.log + 2
        omega
      · cases hp
    · show (KMap.lookup (s.log + 2) [(s.log + 1, st.comp), (s.log + 2, ([] : LogFile))]).isSome
      rw [hlookA]
      rfl
    · show (0 : Nat) = fileSize ((KMap.lookup (s.log + 2)
        [(s.log + 1, st.comp), (s.log + 2, ([] : LogFile))]).getD [])
      rw [hlookA]
      rfl
    · intro k r hl
      have hsome : (KMap.lookup k s.records).isSome := by
        rw [KMap.lookup_isSome_iff, ← hkeysrec, ← KMap.lookup_isSome_iff, hl]
        rfl
      rcases Option.isSome_iff_exists.mp hsome with ⟨r0, hl0⟩
      rcases hP1 k r0 hl0 with ⟨q, v, hq1, hq2, _⟩
      rw [hl] at hq1
      cases hq1
      refine ⟨v, ?_⟩
      show readRec [(s.log + 1, st.comp), (s.log + 2, ([] : LogFile))] (s.log + 1) q r0.len =
        some (.Set k v)
      rw [readRec, hlookC]
      exact hq2
    · show replayIndex [(s.log + 1, st.comp), (s.log + 2, ([] : LogFile))] = st.recs
      rw [replayIndex]
      simp only [List.foldl_cons, List.foldl_nil]
      have hload2 : ∀ m : List (String × RecordArgs), (load (s.log + 2) [] m).1 = m :=
        fun m => rfl
      rw [hload2]
      have := load_liveCmds (s.log + 1)
          (KMap.insert (s.log + 1) ([] : LogFile)
            (KMap.insert (s.log + 2) ([] : LogFile) s.files))
          s.records [] [] 0 hF4 h.rsort (fun p hp => by cases hp)
      simp only [fileSize_nil, List.nil_append] at this
      show (load (s.log + 1) st.comp []).1 = st.recs
      rw [load, hcomp, this, hrecs]
  refine ⟨_, hcompact, hwf, rfl, rfl, rfl, ?_, ?_, ?_⟩
  · intro k'
    cases hl0 : KMap.lookup k' s.records with
    | none =>
      have h1 := hnone_trans k' hl0
      show absv _ k' = absv s k'
      rw [absv, absv, hl0]
      simp only [h1]
    | some r0 =>
      rcases hP1 k' r0 hl0 with ⟨q, v, hq1, hq2, hv⟩
      rw [readRec] at hv
      cases hfl : KMap.lookup r0.log s.files with
      | none =>
        rw [hfl] at hv
        cases hv
      | some f =>
        rw [hfl] at hv
        have hv2 : recAt f r0.pos r0.len = some (.Set k' v) := hv
        show absv _ k' = absv s k'
        simp only [absv, hl0, hq1, readRec, hlookC, hfl, hq2, hv2]
  · intro k r hl
    have hsome : (KMap.lookup k s.records).isSome := by
      rw [KMap.lookup_isSome_iff, ← hkeysrec, ← KMap.lookup_isSome_iff, hl]
      rfl
    rcases Option.isSome_iff_exists.mp hsome with ⟨r0, hl0⟩
    rcases hP1 k r0 hl0 with ⟨q, v, hq1, _, _⟩
    rw [hl] at hq1
    cases hq1
    rfl
  · intro g hg
    constructor
    · have h1 : ¬ (KMap.lookup g rd').isSome = true := by
        rw [KMap.lookup_isSome_iff, hrdk2']
        intro hmem
        rcases List.mem_cons.mp hmem with h2 | h2
        · omega
        · have h3 := List.mem_singleton.mp h2
          omega
      exact Option.not_isSome_iff_eq_none.mp h1
    · have hne1 : (s.log + 1 : Nat) ≠ g := by omega
      have hne2 : (s.log + 2 : Nat) ≠ g := by omega
      show KMap.lookup g [(s.log + 1, st.comp), (s.log + 2, ([] : LogFile))] = none
      simp [KMap.lookup, hne1, hne2]

/-- Specification of the public `set` on the happy I/O path: it
succeeds, preserves well-formedness, and updates the key/value map at
exactly the written key, whether or not the write triggered a
compaction. -/
theorem set_spec (s : KvStore) (k v : String) (h : WF s) :
    (s.set k v).1 = .ok () ∧ WF (s.set k v).2 ∧
    (∀ k', absv (s.set k v).2 k' = if k' = k then some v else absv s k') := by
  rcases setCore_spec s k v h with ⟨hwf2, _, _, _, habs2⟩
  by_cases hc : (s.setCore k v).uncompacted > COMPACTION_THRESHOLD
  · have hset : s.set k v = (s.setCore k v).compact := by
      rw [KvStore.set, KvStore.setFaults]
      simp only [if_true]
      rw [if_pos hc]
    rcases compact_spec (s.setCore k v) hwf2 with
      ⟨s', hcp, hwf', _, _, _, habs', _, _⟩
    rw [hset, hcp]
    exact ⟨rfl, hwf', fun k' => by rw [show (Except.ok (), s').2 = s' from rfl, habs' k', habs2 k']⟩
  · have hset : s.set k v = (.ok (), s.setCore k v) := by
      rw [KvStore.set, KvStore.setFaults]
      simp only [if_true]
      rw [if_neg hc]
    rw [hset]
    exact ⟨rfl, hwf2, habs2⟩

/-- One step of `runOps` preserves well-formedness and acts as the
abstract map update. -/
theorem applyOp_spec (s : KvStore) (op : Op) (h : WF s) :
    WF (s.applyOp op) ∧ (∀ k', absv (s.applyOp op) k' = applyAbs (absv s) op k') := by
  cases op with
  | set k v =>
    rcases set_spec s k v h with ⟨_, hwf, habs⟩
    exact ⟨hwf, fun k' => by rw [KvStore.applyOp, habs k']; simp only [applyAbs]⟩
  | rm k =>
    cases hl : KMap.lookup k s.records with
    | none =>
      have hr : s.remove k = (.error .KeyNotFound, s) := remove_absent s k hl
      refine ⟨by rw [KvStore.applyOp, hr]; exact h, fun k' => ?_⟩
      rw [KvStore.applyOp, hr]
      simp only [applyAbs]
      by_cases he : k' = k
      · subst he
        rw [if_pos rfl, absv, hl]
      · rw [if_neg he]
    | some old =>
      rcases remove_present_spec s k old h hl with ⟨_, hwf, _, _, _, _, habs⟩
      exact ⟨hwf, fun k' => by rw [KvStore.applyOp, habs k']; simp only [applyAbs]⟩

/-- One step of the infinite-threshold engine preserves
well-formedness and acts as the abstract map update. -/
theorem applyOpInf_spec (s : KvStore) (op : Op) (h : WF s) :
    WF (s.applyOpInf op) ∧ (∀ k', absv (s.applyOpInf op) k' = applyAbs (absv s) op k') := by
  cases op with
  | set k v =>
    rcases setCore_spec s k v h with ⟨hwf, _, _, _, habs⟩
    exact ⟨hwf, fun k' => by
      rw [KvStore.applyOpInf, KvStore.setInf, habs k']; simp only [applyAbs]⟩
  | rm k =>
    cases hl : KMap.lookup k s.records with
    | none =>
      have hr : s.remove k = (.error .KeyNotFound, s) := remove_absent s k hl
      refine ⟨by rw [KvStore.applyOpInf, hr]; exact h, fun k' => ?_⟩
      rw [KvStore.applyOpInf, hr]
      simp only [applyAbs]
      by_cases he : k' = k
      · subst he
        rw [if_pos rfl, absv, hl]
      · rw [if_neg he]
    | some old =>
      rcases remove_present_spec s k old h hl with ⟨_, hwf, _, _, _, _, habs⟩
      exact ⟨hwf, fun k' => by rw [KvStore.applyOpInf, habs k']; simp only [applyAbs]⟩

/-- Running a sequence of mutating operations preserves
well-formedness, and the engine's key/value map is the abstract fold
of the operations. -/
theorem runOps_spec (ops : List Op) :
    ∀ s : KvStore, WF s →
      WF (s.runOps ops) ∧
      (∀ k, absv (s.runOps ops) k = (ops.foldl applyAbs (absv s)) k)
  | s, h => by
    induction ops generalizing s with
    | nil => exact ⟨h, fun k => rfl⟩
    | cons op rest ih =>
      rcases applyOp_spec s op h with ⟨hwf1, habs1⟩
      rcases ih (s.applyOp op) hwf1 with ⟨hwf2, habs2⟩
      have hfe : absv (s.applyOp op) = applyAbs (absv s) op := funext habs1
      refine ⟨hwf2, fun k => ?_⟩
      rw [show s.runOps (op :: rest) = (s.applyOp op).runOps rest from rfl,
        habs2 k, List.foldl_cons, hfe]

/-- Running a sequence on the infinite-threshold engine preserves
well-formedness, with the same abstract fold. -/
theorem runOpsInf_spec (ops : List Op) :
    ∀ s : KvStore, WF s →
      WF (s.runOpsInf ops) ∧
      (∀ k, absv (s.runOpsInf ops) k = (ops.foldl applyAbs (absv s)) k)
  | s, h => by
    induction ops generalizing s with
    | nil => exact ⟨h, fun k => rfl⟩
    | cons op rest ih =>
      rcases applyOpInf_spec s op h with ⟨hwf1, habs1⟩
      rcases ih (s.applyOpInf op) hwf1 with ⟨hwf2, habs2⟩
      have hfe : absv (s.applyOpInf op) = applyAbs (absv s) op := funext habs1
      refine ⟨hwf2, fun k => ?_⟩
      rw [show s.runOpsInf (op :: rest) = (s.applyOpInf op).runOpsInf rest from rfl,
        habs2 k, List.foldl_cons, hfe]

/-- The abstract fold of a pure `set` sequence returns the most recent
value set for a key, falling back to the initial map. -/
theorem foldl_applyAbs_sets :
    ∀ (ops : List (String × String)) (m : String → Option String) (k : String),
      ((ops.map (fun p => Op.set p.1 p.2)).foldl applyAbs m) k =
        (match lastSet ops k with
         | some v => some v
         | none => m k)
  | [], m, k => rfl
  | p :: rest, m, k => by
    rw [List.map_cons, List.foldl_cons, foldl_applyAbs_sets rest _ k, lastSet]
    cases lastSet rest k with
    | some v => rfl
    | none =>
      by_cases he : p.1 = k
      · simp [applyAbs, he]
      · have he2 : ¬ k = p.1 := fun hh => he hh.symm
        simp [applyAbs, he, he2]

/-- The abstract fold keeps a key absent when no operation in the
sequence sets it. -/
theorem foldl_applyAbs_none :
    ∀ (ops : List Op) (k : String) (m : String → Option String),
      m k = none → (∀ v, Op.set k v ∉ ops) → (ops.foldl applyAbs m) k = none
  | [], _, _, hm, _ => hm
  | op :: rest, k, m, hm, hno => by
    rw [List.foldl_cons]
    refine foldl_applyAbs_none rest k _ ?_ (fun v hv => hno v (List.mem_cons_of_mem _ hv))
    cases op with
    | set k2 v2 =>
      have hne : k ≠ k2 := by
        intro he
        exact hno v2 (by rw [he]; exact List.mem_cons_self _ _)
      simp only [applyAbs]
      rw [if_neg hne]
      exact hm
    | rm k2 =>
      simp only [applyAbs]
      by_cases he : k = k2
      · rw [if_pos he]
      · rw [if_neg he]
        exact hm

/-- Appending an entry above every key keeps the map sorted. -/
theorem sorted_append_single [KOrd κ] (l : List (κ × σ)) (k : κ) (v : σ)
    (hs : KMap.SortedKeys l) (hb : ∀ p ∈ l, KOrd.klt p.1 k = true) :
    KMap.SortedKeys (l ++ [(k, v)]) := by
  rw [KMap.SortedKeys, List.pairwise_append]
  refine ⟨hs, by simp [KMap.SortedKeys], ?_⟩
  intro a ha b hb2
  rcases List.mem_singleton.mp hb2 with rfl
  exact hb a ha

/-- Characterisation of the replay loop of `open`: folding the load
step over the sorted generation list equals replaying the file pairs
directly, and collects one end-of-file reader per generation. -/
theorem openFold_spec (dir : List (Nat × LogFile)) :
    ∀ (l : List (Nat × LogFile)) (acc : List (String × RecordArgs) × Nat × List (Nat × Nat)),
      (∀ p ∈ l, KMap.lookup p.1 dir = some p.2) →
      (∀ p ∈ acc.2.2, ∀ q ∈ l, KOrd.klt p.1 q.1 = true) →
      KMap.SortedKeys acc.2.2 →
      KMap.SortedKeys l →
      ((l.map Prod.fst).foldl
        (fun acc g =>
          ((load g ((KMap.lookup g dir).getD []) acc.1).1,
           acc.2.1 + (load g ((KMap.lookup g dir).getD []) acc.1).2,
           KMap.insert g (fileSize ((KMap.lookup g dir).getD [])) acc.2.2))
        acc).1 = l.foldl (fun m p => (load p.1 p.2 m).1) acc.1 ∧
      ((l.map Prod.fst).foldl
        (fun acc g =>
          ((load g ((KMap.lookup g dir).getD []) acc.1).1,
           acc.2.1 + (load g ((KMap.lookup g dir).getD []) acc.1).2,
           KMap.insert g (fileSize ((KMap.lookup g dir).getD [])) acc.2.2))
        acc).2.2 = acc.2.2 ++ l.map (fun p => (p.1, fileSize p.2))
  | [], acc, _, _, _, _ => ⟨rfl, by simp⟩
  | p :: rest, acc, hmem, hlt, hsacc, hsl => by
    have hp := hmem p (List.mem_cons_self p rest)
    rcases KMap.sorted_cons.mp hsl with ⟨hs1, hs2⟩
    have hins : KMap.insert p.1 (fileSize ((KMap.lookup p.1 dir).getD [])) acc.2.2 =
        acc.2.2 ++ [(p.1, fileSize p.2)] := by
      rw [hp]
      exact KMap.insert_append_of_klt_all p.1 _ acc.2.2
        (fun q hq => hlt q hq p (List.mem_cons_self p rest))
    have hstep :
        ((load p.1 ((KMap.lookup p.1 dir).getD []) acc.1).1,
         acc.2.1 + (load p.1 ((KMap.lookup p.1 dir).getD []) acc.1).2,
         KMap.insert p.1 (fileSize ((KMap.lookup p.1 dir).getD [])) acc.2.2) =
        ((load p.1 p.2 acc.1).1,
         acc.2.1 + (load p.1 p.2 acc.1).2,
         acc.2.2 ++ [(p.1, fileSize p.2)]) := by
      rw [hins, hp]
      simp
    rcases openFold_spec dir rest
        ((load p.1 p.2 acc.1).1,
         acc.2.1 + (load p.1 p.2 acc.1).2,
         acc.2.2 ++ [(p.1, fileSize p.2)])
        (fun q hq => hmem q (List.mem_cons_of_mem p hq))
        (by
          intro q hq r hr
          rcases List.mem_append.mp hq with h1 | h1
          · exact hlt q h1 r (List.mem_cons_of_mem p hr)
          · rcases List.mem_singleton.mp h1 with rfl
            exact hs1 r hr)
        (sorted_append_single acc.2.2 p.1 (fileSize p.2) hsacc
          (fun q hq => hlt q hq p (List.mem_cons_self p rest)))
        hs2 with ⟨h1, h2⟩
    constructor
    · rw [List.map_cons, List.foldl_cons, hstep, h1, List.foldl_cons]
    · rw [List.map_cons, List.foldl_cons, hstep, h2]
      simp

/-- Opening a directory left by a well-formed engine yields a
well-formed engine with the same index, the same values for every key,
and the next fresh generation as its active log. -/
theorem openDir_spec (s : KvStore) (h : WF s) :
    WF (openDir s.files) ∧ (∀ k, absv (openDir s.files) k = absv s k) ∧
    (openDir s.files).records = s.records ∧
    (openDir s.files).log = s.log + 1 := by
  rcases wf_files_split h with ⟨init, af, hsplit, _, _, _⟩
  have hsortedLe : List.Sorted (· ≤ ·) (s.files.map Prod.fst) := by
    have := (sorted_iff_keys s.files).mp h.fsort
    exact this.imp (fun hab => le_of_lt (of_decide_eq_true hab))
  have hlogList : List.insertionSort (· ≤ ·) (s.files.map Prod.fst) =
      s.files.map Prod.fst := hsortedLe.insertionSort_eq
  have hlast : (s.files.map Prod.fst).getLast?.getD 0 = s.log := by
    rw [hsplit]
    simp
  rcases openFold_spec s.files s.files ([], 0, [])
      (fun p hp => lookup_of_mem_sorted h.fsort hp)
      (fun q hq => by cases hq)
      (by exact List.Pairwise.nil)
      h.fsort with ⟨hfold1, hfold2⟩
  have hExpand : openDir s.files =
      { log := s.log + 1,
        uncompacted := ((s.files.map Prod.fst).foldl
          (fun acc g =>
            ((load g ((KMap.lookup g s.files).getD []) acc.1).1,
             acc.2.1 + (load g ((KMap.lookup g s.files).getD []) acc.1).2,
             KMap.insert g (fileSize ((KMap.lookup g s.files).getD [])) acc.2.2))
          ([], 0, [])).2.1,
        readers := KMap.insert (s.log + 1) 0
          (s.files.map (fun p => (p.1, fileSize p.2))),
        writerPos := 0,
        files := KMap.insert (s.log + 1) ([] : LogFile) s.files,
        records := s.records } := by
    rw [openDir]
    simp only [hlogList, hlast]
    rw [hfold2, hfold1]
    have : s.files.foldl (fun m p => (load p.1 p.2 m).1) [] = s.records := h.replay
    rw [this]
    simp
  have hkltlog : ∀ p ∈ s.files, KOrd.klt p.1 (s.log + 1) = true := by
    intro p hp
    have := h.fle p hp
    show decide (p.1 < s.log + 1) = true
    simp only [decide_eq_true_eq]
    omega
  have hfiles' : KMap.insert (s.log + 1) ([] : LogFile) s.files =
      s.files ++ [(s.log + 1, [])] :=
    KMap.insert_append_of_klt_all _ _ s.files hkltlog
  have hkltlog2 : ∀ p ∈ s.files.map (fun p => (p.1, fileSize p.2)),
      KOrd.klt p.1 (s.log + 1) = true := by
    intro p hp
    rcases List.mem_map.mp hp with ⟨q, hq, rfl⟩
    exact hkltlog q hq
  have hreaders' : KMap.insert (s.log + 1) 0 (s.files.map (fun p => (p.1, fileSize p.2))) =
      s.files.map (fun p => (p.1, fileSize p.2)) ++ [(s.log + 1, 0)] :=
    KMap.insert_append_of_klt_all _ _ _ hkltlog2
  have hlookNew : KMap.lookup (s.log + 1) (s.files ++ [(s.log + 1, ([] : LogFile))]) =
      some ([] : LogFile) := by
    have hnone : KMap.lookup (s.log + 1) s.files = none := by
      refine KMap.lookup_eq_none_of_forall_ne (fun p hp => ?_)
      have := h.fle p hp
      omega
    rw [KMap.lookup_append_none _ _ _ hnone]
    simp [KMap.lookup]
  have hreadRec : ∀ g pos len c, readRec s.files g pos len = some c →
      readRec (s.files ++ [(s.log + 1, ([] : LogFile))]) g pos len = some c :=
    fun g pos len c hc => readRec_append_files s.files _ g pos len c hc
  have hwf : WF (openDir s.files) := by
    rw [hExpand]
    refine ⟨?_, ?_, ?_, ?_, ?_, ?_, ?_, ?_⟩
    · exact h.rsort
    · show KMap.SortedKeys (KMap.insert (s.log + 1) ([] : LogFile) s.files)
      rw [hfiles']
      exact sorted_append_single s.files _ _ h.fsort hkltlog
    · show (KMap.insert (s.log + 1) 0 (s.files.map (fun p => (p.1, fileSize p.2)))).map
          Prod.fst = (KMap.insert (s.log + 1) ([] : LogFile) s.files).map Prod.fst
      rw [hreaders', hfiles']
      simp
    · intro p hp
      show p.1 ≤ s.log + 1
      rw [hfiles'] at hp
      rcases List.mem_append.mp hp with h1 | h1
      · have := h.fle p h1
        omega
      · rcases List.mem_singleton.mp h1 with rfl
        omega
    · show (KMap.lookup (s.log + 1) (KMap.insert (s.log + 1) ([] : LogFile) s.files)).isSome
      rw [hfiles', hlookNew]
      rfl
    · show (0 : Nat) = fileSize ((KMap.lookup (s.log + 1)
        (KMap.insert (s.log + 1) ([] : LogFile) s.files)).getD [])
      rw [hfiles', hlookNew]
      rfl
    · intro k r hl
      rcases h.points k r hl with ⟨v, hv⟩
      refine ⟨v, ?_⟩
      show readRec (KMap.insert (s.log + 1) ([] : LogFile) s.files) r.log r.pos r.len = _
      rw [hfiles']
      exact hreadRec _ _ _ _ hv
    · show replayIndex (KMap.insert (s.log + 1) ([] : LogFile) s.files) = s.records
      rw [hfiles', replayIndex_append]
      show (load (s.log + 1) [] (replayIndex s.files)).1 = s.records
      rw [h.replay]
      rfl
  refine ⟨hwf, ?_, by rw [hExpand], by rw [hExpand]⟩
  intro k
  cases hl : KMap.lookup k s.records with
  | none =>
    rw [absv, absv, hl]
    rw [hExpand]
    simp only [hl]
  | some r =>
    rcases h.points k r hl with ⟨v, hv⟩
    rw [readRec] at hv
    cases hfl : KMap.lookup r.log s.files with
    | none =>
      rw [hfl] at hv
      cases hv
    | some f =>
      rw [hfl] at hv
      have hv2 : recAt f r.pos r.len = some (.Set k v) := hv
      have hv3 : readRec (s.files ++ [(s.log + 1, ([] : LogFile))]) r.log r.pos r.len =
          some (.Set k v) := by
        rw [readRec, KMap.lookup_append_some _ _ _ _ hfl]
        exact hv2
      rw [absv, absv, hExpand]
      simp only [hl, readRec, hfl, hv2, hfiles']
      rw [readRec] at hv3
      cases hfl2 : KMap.lookup r.log (s.files ++ [(s.log + 1, ([] : LogFile))]) with
      | none =>
        rw [hfl2] at hv3
        cases hv3
      | some f2 =>
        rw [hfl2] at hv3
        have hv4 : recAt f2 r.pos r.len = some (.Set k v) := hv3
        simp only [hfl2, hv4]

/-- The engine freshly opened on an empty directory is well-formed. -/
theorem wf_fresh : WF freshStore := by
  refine ⟨?_, ?_, ?_, ?_, ?_, ?_, ?_, ?_⟩
  · exact List.Pairwise.nil
  · show KMap.SortedKeys [(1, ([] : LogFile))]
    simp [KMap.SortedKeys]
  · rfl
  · intro p hp
    have hp2 : p ∈ [(1, ([] : LogFile))] := hp
    rcases List.mem_singleton.mp hp2 with rfl
    show (1 : Nat) ≤ 1
    omega
  · rfl
  · rfl
  · intro k r hl
    have hl2 : KMap.lookup k ([] : List (String × RecordArgs)) = some r := hl
    cases hl2
  · rfl

/-- The threshold-boundary store is well-formed: one live key whose
entry reads back correctly, and a mebibyte of accumulated stale
bytes. -/
theorem wf_cexStore : WF cexStore := by
  refine ⟨?_, ?_, ?_, ?_, ?_, ?_, ?_, ?_⟩
  · show KMap.SortedKeys [("k", RecordArgs.mk 1 0 31)]
    simp [KMap.SortedKeys]
  · show KMap.SortedKeys [(1, [MultipleCmd.Set "k" "v"])]
    simp [KMap.SortedKeys]
  · rfl
  · intro p hp
    have hp2 : p ∈ [(1, [MultipleCmd.Set "k" "v"])] := hp
    rcases List.mem_singleton.mp hp2 with rfl
    show (1 : Nat) ≤ 1
    omega
  · rfl
  · decide
  · intro k r hl
    have hl2 : KMap.lookup k [("k", RecordArgs.mk 1 0 31)] = some r := hl
    rw [KMap.lookup] at hl2
    by_cases he : ("k" : String) = k
    · rw [if_pos he] at hl2
      cases hl2
      subst he
      exact ⟨"v", by decide⟩
    · rw [if_neg he] at hl2
      cases hl2
  · decide

/-- C1: running any sequence of `set` operations from a well-formed
engine and then reading a key returns the value of the most recent
`set` of that key in the sequence. -/
theorem C1_roundtrip (s0 : KvStore) (ops : List (String × String)) (k v : String)
    (h : WF s0) (hl : lastSet ops k = some v) :
    ((s0.runSets ops).get k).1 = .ok (some v) := by
  rcases runOps_spec (ops.map fun p => Op.set p.1 p.2) s0 h with ⟨hwf, habs⟩
  have h1 := (get_spec (s0.runOps (ops.map fun p => Op.set p.1 p.2)) k hwf).1
  have h2 : absv (s0.runOps (ops.map fun p => Op.set p.1 p.2)) k = some v := by
    rw [habs k, foldl_applyAbs_sets ops (absv s0) k, hl]
  rw [KvStore.runSets, h1, h2]

theorem C1_roundtrip_witness :
    WF freshStore ∧ lastSet [("a", "1"), ("a", "2")] "a" = some "2" ∧
    ((freshStore.runSets [("a", "1"), ("a", "2")]).get "a").1 = .ok (some "2") :=
  ⟨wf_fresh, by decide,
    C1_roundtrip freshStore [("a", "1"), ("a", "2")] "a" "2" wf_fresh (by decide)⟩

/-- C2 (amended): only `set` checks the stale-byte counter, and it
compacts exactly when the counter strictly exceeds the 1 MiB threshold
after the index update; `remove` never triggers compaction (its active
generation and file set are unchanged). -/
theorem C2_compaction_trigger (s : KvStore) (k v k2 : String) (h : WF s) :
    ((s.setCore k v).uncompacted > COMPACTION_THRESHOLD →
      (s.set k v).2.log = s.log + 2 ∧ (s.set k v).2.uncompacted = 0) ∧
    ((s.setCore k v).uncompacted ≤ COMPACTION_THRESHOLD →
      (s.set k v).2 = s.setCore k v) ∧
    (s.remove k2).2.log = s.log ∧
    (s.remove k2).2.files.map Prod.fst = s.files.map Prod.fst := by
  rcases setCore_spec s k v h with ⟨hwf2, hlog2, _, _, _⟩
  refine ⟨?_, ?_, ?_, ?_⟩
  · intro hc
    have hset : s.set k v = (s.setCore k v).compact := by
      rw [KvStore.set, KvStore.setFaults]
      simp only [if_true]
      rw [if_pos hc]
    rcases compact_spec (s.setCore k v) hwf2 with ⟨s', hcp, _, hlog', hunc', _, _, _, _⟩
    rw [hset, hcp]
    exact ⟨by rw [show (Except.ok (), s').2 = s' from rfl, hlog', hlog2],
      by rw [show (Except.ok (), s').2 = s' from rfl, hunc']⟩
  · intro hc
    have hset : s.set k v = (.ok (), s.setCore k v) := by
      rw [KvStore.set, KvStore.setFaults]
      simp only [if_true]
      rw [if_neg (by omega)]
    rw [hset]
  · cases hl : KMap.lookup k2 s.records with
    | none => rw [remove_absent s k2 hl]
    | some old => exact (remove_present_spec s k2 old h hl).2.2.1
  · cases hl : KMap.lookup k2 s.records with
    | none => rw [remove_absent s k2 hl]
    | some old => exact (remove_present_spec s k2 old h hl).2.2.2.2.2.1

theorem C2_compaction_trigger_witness :
    WF freshStore ∧
    (((freshStore.setCore "a" "b").uncompacted > COMPACTION_THRESHOLD →
       (freshStore.set "a" "b").2.log = freshStore.log + 2 ∧
       (freshStore.set "a" "b").2.uncompacted = 0) ∧
     ((freshStore.setCore "a" "b").uncompacted ≤ COMPACTION_THRESHOLD →
       (freshStore.set "a" "b").2 = freshStore.setCore "a" "b") ∧
     (freshStore.remove "c").2.log = freshStore.log ∧
     (freshStore.remove "c").2.files.map Prod.fst = freshStore.files.map Prod.fst) :=
  ⟨wf_fresh, C2_compaction_trigger freshStore "a" "b" "c" wf_fresh⟩

/-- C2 (counterexample to the claim as stated): a well-formed store
holding exactly 1 MiB of stale bytes; a successful `remove` leaves the
stale count at or above the threshold yet runs no compaction — the
active generation, the file set and the (non-zero) stale counter are
all untouched, contradicting "for every mutating operation — both set
and remove — ... compaction runs synchronously before that call
returns". -/
theorem C2_compaction_trigger_cex :
    WF cexStore ∧
    COMPACTION_THRESHOLD ≤ cexStore.uncompacted ∧
    (cexStore.remove "k").1 = .ok () ∧
    COMPACTION_THRESHOLD ≤ (cexStore.remove "k").2.uncompacted ∧
    (cexStore.remove "k").2.log = cexStore.log ∧
    (cexStore.remove "k").2.files.map Prod.fst = cexStore.files.map Prod.fst ∧
    (cexStore.remove "k").2.uncompacted ≠ 0 :=
  ⟨wf_cexStore, by decide, by decide, by decide, by decide, by decide, by decide⟩

/-- C3 (code bug witnessed): after `open; set("k","v"); remove("k")`
the engine's stale counter holds only the retired `Set` record's 31
bytes, while the stale bytes as specified (retired records plus every
`Remove` record) are 49; the code's own replay (`load`) computes 49 on
reopen, so the in-memory counter disagrees with what `open` rebuilds
from the same directory. -/
theorem C3_stale_accounting :
    (((freshStore.set "k" "v").2.remove "k").2).uncompacted = 31 ∧
    specStaleBytes (((freshStore.set "k" "v").2.remove "k").2) = 49 ∧
    (openDir ((((freshStore.set "k" "v").2.remove "k").2).files)).uncompacted = 49 ∧
    encLen (.Set "k" "v") = 31 ∧ encLen (.Rm "k") = 18 :=
  ⟨by decide, by decide, by decide, by decide, by decide⟩

/-- C4: reopening a fresh engine on the directory of a well-formed
engine yields the same `get` result for every key. -/
theorem C4_persistence (s : KvStore) (k : String) (h : WF s) :
    ((openDir s.files).get k).1 = (s.get k).1 := by
  rcases openDir_spec s h with ⟨hwf2, habs, _, _⟩
  rw [(get_spec (openDir s.files) k hwf2).1, (get_spec s k h).1, habs k]

theorem C4_persistence_witness :
    WF ((freshStore.set "k" "v").2) ∧
    ((openDir ((freshStore.set "k" "v").2).files).get "k").1 =
      (((freshStore.set "k" "v").2).get "k").1 :=
  ⟨(set_spec freshStore "k" "v" wf_fresh).2.1,
    C4_persistence ((freshStore.set "k" "v").2) "k"
      (set_spec freshStore "k" "v" wf_fresh).2.1⟩

/-- C5: after a successful `remove(k)`, `get(k)` returns `None`
through any further sequence of mutations that never sets `k`
again. -/
theorem C5_tombstone (s : KvStore) (k : String) (ops : List Op) (h : WF s)
    (hok : (s.remove k).1 = .ok ()) (hno : ∀ v, Op.set k v ∉ ops) :
    (((s.remove k).2.runOps ops).get k).1 = .ok none := by
  cases hl : KMap.lookup k s.records with
  | none =>
    rw [remove_absent s k hl] at hok
    simp at hok
  | some old =>
    rcases remove_present_spec s k old h hl with ⟨_, hwf, _, _, _, _, habs⟩
    rcases runOps_spec ops (s.remove k).2 hwf with ⟨hwf2, habs2⟩
    rw [(get_spec _ k hwf2).1]
    have h0 : absv (s.remove k).2 k = none := by rw [habs k, if_pos rfl]
    have h1 : (ops.foldl applyAbs (absv (s.remove k).2)) k = none :=
      foldl_applyAbs_none ops k _ h0 hno
    rw [habs2 k, h1]

theorem C5_tombstone_witness :
    WF ((freshStore.set "k" "v").2) ∧
    (((freshStore.set "k" "v").2.remove "k").1 = .ok ()) ∧
    (∀ v, Op.set "k" v ∉ [Op.rm "z"]) ∧
    ((((freshStore.set "k" "v").2.remove "k").2.runOps [Op.rm "z"]).get "k").1 = .ok none :=
  ⟨(set_spec freshStore "k" "v" wf_fresh).2.1, by decide,
    fun v hv => by simp at hv,
    C5_tombstone ((freshStore.set "k" "v").2) "k" [Op.rm "z"]
      (set_spec freshStore "k" "v" wf_fresh).2.1 (by decide)
      (fun v hv => by simp at hv)⟩

/-- C6: when `compact` returns successfully from active generation
`g`, every index entry points into `g + 1`, every generation strictly
below `g + 1` has its reader dropped and its file deleted, the stale
counter is reset, and subsequent writes land in `g + 2`. -/
theorem C6_compact_postconditions (s s' : KvStore) (h : WF s)
    (hc : s.compact = (.ok (), s')) :
    (∀ k r, KMap.lookup k s'.records = some r → r.log = s.log + 1) ∧
    (∀ g, g < s.log + 1 →
      KMap.lookup g s'.readers = none ∧ KMap.lookup g s'.files = none) ∧
    s'.uncompacted = 0 ∧ s'.log = s.log + 2 := by
  rcases compact_spec s h with ⟨s2, hc2, _, hlog, hunc, _, _, hplog, hgone⟩
  rw [hc] at hc2
  have hs : s' = s2 := by
    simp only [Prod.mk.injEq] at hc2
    exact hc2.2
  subst hs
  exact ⟨hplog, hgone, hunc, hlog⟩

theorem C6_compact_postconditions_witness :
    WF freshStore ∧ freshStore.compact = (.ok (), (freshStore.compact).2) ∧
    ((∀ k r, KMap.lookup k (freshStore.compact).2.records = some r →
        r.log = freshStore.log + 1) ∧
     (∀ g, g < freshStore.log + 1 →
       KMap.lookup g (freshStore.compact).2.readers = none ∧
       KMap.lookup g (freshStore.compact).2.files = none) ∧
     (freshStore.compact).2.uncompacted = 0 ∧
     (freshStore.compact).2.log = freshStore.log + 2) :=
  ⟨wf_fresh, by decide,
    C6_compact_postconditions freshStore (freshStore.compact).2 wf_fresh (by decide)⟩

/-- C7: for every operation sequence (in particular every sequence
that triggers at least one compaction), the engine returns the same
`get` result for every key as the infinite-threshold engine that never
compacts. -/
theorem C7_compaction_preserves (s : KvStore) (ops : List Op) (k : String) (h : WF s) :
    ((s.runOps ops).get k).1 = ((s.runOpsInf ops).get k).1 := by
  rcases runOps_spec ops s h with ⟨hwf1, habs1⟩
  rcases runOpsInf_spec ops s h with ⟨hwf2, habs2⟩
  rw [(get_spec _ k hwf1).1, (get_spec _ k hwf2).1, habs1 k, habs2 k]

theorem C7_compaction_preserves_witness :
    WF freshStore ∧
    ((freshStore.runOps [Op.set "a" "b"]).get "a").1 =
      ((freshStore.runOpsInf [Op.set "a" "b"]).get "a").1 :=
  ⟨wf_fresh, C7_compaction_preserves freshStore [Op.set "a" "b"] "a" wf_fresh⟩

/-- C8: `remove` fails with `KeyNotFound` exactly when the key is
absent from the index, and in that case the engine state is completely
unchanged (in particular nothing is appended to the log). -/
theorem C8_remove_key_not_found (s : KvStore) (k : String) (h : WF s) :
    ((s.remove k).1 = .error .KeyNotFound ↔ KMap.lookup k s.records = none) ∧
    (KMap.lookup k s.records = none → (s.remove k).2 = s) := by
  cases hl : KMap.lookup k s.records with
  | none =>
    rw [remove_absent s k hl]
    exact ⟨⟨fun _ => rfl, fun _ => rfl⟩, fun _ => rfl⟩
  | some old =>
    rcases remove_present_spec s k old h hl with ⟨hok, _, _, _, _, _, _⟩
    refine ⟨⟨fun he => ?_, fun he => ?_⟩, fun he => ?_⟩
    · rw [hok] at he
      simp at he
    · exact Option.noConfusion he
    · exact Option.noConfusion he

theorem C8_remove_key_not_found_witness :
    WF freshStore ∧
    (((freshStore.remove "k").1 = .error .KeyNotFound ↔
        KMap.lookup "k" freshStore.records = none) ∧
     (KMap.lookup "k" freshStore.records = none → (freshStore.remove "k").2 = freshStore)) :=
  ⟨wf_fresh, C8_remove_key_not_found freshStore "k" wf_fresh⟩

/-- C9: when serialisation, the buffered write, or the flush fails,
`set` returns an error and the index is unchanged — no entry points at
the partially written record. -/
theorem C9_set_atomic (s : KvStore) (k v : String) (wOk fOk : Bool) (n : Nat)
    (hfail : wOk = false ∨ fOk = false) :
    (∃ e, (s.setFaults k v wOk fOk n).1 = .error e) ∧
    (s.setFaults k v wOk fOk n).2.records = s.records := by
  rcases hfail with hf | hf
  · subst hf
    exact ⟨⟨.Serde, rfl⟩, rfl⟩
  · subst hf
    cases wOk
    · exact ⟨⟨.Serde, rfl⟩, rfl⟩
    · exact ⟨⟨.Io, rfl⟩, rfl⟩

theorem C9_set_atomic_witness :
    ((true : Bool) = false ∨ (false : Bool) = false) ∧
    ((∃ e, (freshStore.setFaults "a" "b" true false 0).1 = .error e) ∧
     (freshStore.setFaults "a" "b" true false 0).2.records = freshStore.records) :=
  ⟨Or.inr rfl, C9_set_atomic freshStore "a" "b" true false 0 (Or.inr rfl)⟩

/-- C10: a successful `get` leaves the index, the stale counter, the
active generation, the file set and the writer position unchanged; it
only moves reader positions (the reader key set is also unchanged). -/
theorem C10_get_frame (s : KvStore) (k : String) (o : Option String) (h : WF s)
    (hok : (s.get k).1 = .ok o) :
    (s.get k).2.records = s.records ∧ (s.get k).2.uncompacted = s.uncompacted ∧
    (s.get k).2.log = s.log ∧ (s.get k).2.files = s.files ∧
    (s.get k).2.writerPos = s.writerPos ∧
    (s.get k).2.readers.map Prod.fst = s.readers.map Prod.fst := by
  rcases get_spec s k h with ⟨_, h2, h3, h4, h5, h6, h7⟩
  exact ⟨h2, h3, h4, h5, h6, h7⟩

theorem C10_get_frame_witness :
    WF freshStore ∧ (freshStore.get "k").1 = .ok none ∧
    ((freshStore.get "k").2.records = freshStore.records ∧
     (freshStore.get "k").2.uncompacted = freshStore.uncompacted ∧
     (freshStore.get "k").2.log = freshStore.log ∧
     (freshStore.get "k").2.files = freshStore.files ∧
     (freshStore.get "k").2.writerPos = freshStore.writerPos ∧
     (freshStore.get "k").2.readers.map Prod.fst = freshStore.readers.map Prod.fst) :=
  ⟨wf_fresh, by decide, C10_get_frame freshStore "k" none wf_fresh (by decide)⟩

end Kvs
